import Mathlib

/-!
# Verification of the cv-parser-ai extraction pipeline

A shallow embedding, in Lean 4, of the pure core of the `cv-parser-ai`
repository: the AI-response parser (`parseAIResponse`), the confidence
scorer (`calculateConfidence`), the text compressor (`smartCompressText`),
the model-fallback loop (`parseWithFallback`), the batch driver
(`parseBatch`) and the schema validator (`DataValidator`).

JavaScript strings are embedded as `List Char`; JavaScript values visible
to the pipeline are embedded as the inductive type `Js` (numbers are
modelled as integers — the pipeline never computes with fractional
numbers except the confidence score, which is modelled exactly with `ℚ`).
Host functions used by the source (`JSON.parse`, `JSON.stringify`,
`String.prototype.trim`, regex replacement, `Date` parsing) are modelled
explicitly below, each next to the embedded source function that uses it.
-/

set_option maxHeartbeats 1000000

abbrev Str := List Char

/-! ## JavaScript string primitives -/

/-- Host model: the JavaScript whitespace class (`\s`, and the characters
removed by `String.prototype.trim`), restricted to the ASCII range the
pipeline manipulates. -/
def jsWs (c : Char) : Bool :=
  c = ' ' || c = '\t' || c = '\n' || c = '\r' || c = '\x0b' || c = '\x0c'

/-- Host model: `String.prototype.trim`. -/
def jsTrim (s : Str) : Str :=
  (s.dropWhile jsWs).reverse.dropWhile jsWs |>.reverse

/-- `needle` occurs as a contiguous substring (`String.prototype.includes`). -/
def containsSub (hay needle : Str) : Bool :=
  needle.isPrefixOf hay ||
    match hay with
    | [] => false
    | _ :: t => containsSub t needle

/-- Index of the first occurrence of `c` (`String.prototype.indexOf`),
`none` when absent. -/
def idxOf? (c : Char) : Str → Option Nat
  | [] => none
  | x :: t => if x = c then some 0 else (idxOf? c t).map (· + 1)

/-- Index of the last occurrence of `c` (`String.prototype.lastIndexOf`),
`none` when absent. -/
def lastIdxOf? (c : Char) (s : Str) : Option Nat :=
  (idxOf? c s.reverse).map (fun i => s.length - 1 - i)

/-! ## The JavaScript value type -/

/-- JavaScript values visible to the pipeline.  Numbers are embedded as
integers; JS strings as `List Char`. -/
inductive Js where
  | undef
  | null
  | bool (b : Bool)
  | num (n : Int)
  | str (s : Str)
  | arr (elems : List Js)
  | obj (fields : List (Str × Js))
deriving Repr

mutual

def Js.beq : Js → Js → Bool
  | .undef, .undef => true
  | .null, .null => true
  | .bool a, .bool b => a = b
  | .num a, .num b => a = b
  | .str a, .str b => a = b
  | .arr a, .arr b => Js.beqList a b
  | .obj a, .obj b => Js.beqObj a b
  | _, _ => false

def Js.beqList : List Js → List Js → Bool
  | [], [] => true
  | a :: as, b :: bs => Js.beq a b && Js.beqList as bs
  | _, _ => false

def Js.beqObj : List (Str × Js) → List (Str × Js) → Bool
  | [], [] => true
  | (k, a) :: as, (l, b) :: bs => k = l && Js.beq a b && Js.beqObj as bs
  | _, _ => false

end

mutual

theorem Js.beq_iff : ∀ a b : Js, Js.beq a b = true ↔ a = b
  | .undef, b => by cases b <;> simp [Js.beq]
  | .null, b => by cases b <;> simp [Js.beq]
  | .bool _, b => by cases b <;> simp [Js.beq]
  | .num _, b => by cases b <;> simp [Js.beq]
  | .str _, b => by cases b <;> simp [Js.beq]
  | .arr as, b => by
      cases b <;> simp [Js.beq]
      exact Js.beqList_iff as _
  | .obj as, b => by
      cases b <;> simp [Js.beq]
      exact Js.beqObj_iff as _

theorem Js.beqList_iff : ∀ a b : List Js, Js.beqList a b = true ↔ a = b
  | [], b => by cases b <;> simp [Js.beqList]
  | a :: as, b => by
      cases b with
      | nil => simp [Js.beqList]
      | cons x xs =>
        simp [Js.beqList, Bool.and_eq_true, Js.beq_iff a x, Js.beqList_iff as xs]

theorem Js.beqObj_iff : ∀ a b : List (Str × Js), Js.beqObj a b = true ↔ a = b
  | [], b => by cases b <;> simp [Js.beqObj]
  | (k, a) :: as, b => by
      cases b with
      | nil => simp [Js.beqObj]
      | cons x xs =>
        obtain ⟨l, v⟩ := x
        simp [Js.beqObj, Bool.and_eq_true, Js.beq_iff a v, Js.beqObj_iff as xs,
          and_assoc]

end

instance : DecidableEq Js := fun a b =>
  if h : Js.beq a b = true then .isTrue ((Js.beq_iff a b).mp h)
  else .isFalse (fun he => h (he ▸ (Js.beq_iff a a).mpr rfl))

/-- Induction principle for the nested inductive `Js` giving element-wise
hypotheses for arrays and objects. -/
theorem Js.my_ind {P : Js → Prop}
    (hundef : P .undef) (hnull : P .null) (hbool : ∀ b, P (.bool b))
    (hnum : ∀ n, P (.num n)) (hstr : ∀ s, P (.str s))
    (harr : ∀ xs, (∀ x ∈ xs, P x) → P (.arr xs))
    (hobj : ∀ kvs, (∀ kv ∈ kvs, P kv.2) → P (.obj kvs)) :
    ∀ v, P v
  | .undef => hundef
  | .null => hnull
  | .bool b => hbool b
  | .num n => hnum n
  | .str s => hstr s
  | .arr xs => harr xs (fun x hx =>
      Js.my_ind hundef hnull hbool hnum hstr harr hobj x)
  | .obj kvs => hobj kvs (fun kv hkv =>
      Js.my_ind hundef hnull hbool hnum hstr harr hobj kv.2)
termination_by v => sizeOf v
decreasing_by
  · have := List.sizeOf_lt_of_mem hx
    simp only [Js.arr.sizeOf_spec]
    omega
  · have h1 := List.sizeOf_lt_of_mem hkv
    obtain ⟨k, v⟩ := kv
    simp only [Prod.mk.sizeOf_spec] at h1
    simp only [Js.obj.sizeOf_spec]
    omega

mutual

/-- `undefined` occurs nowhere in the value (such values are what
`JSON.stringify` serializes faithfully). -/
def Js.noUndef : Js → Bool
  | .undef => false
  | .arr xs => Js.noUndefList xs
  | .obj kvs => Js.noUndefObj kvs
  | _ => true

def Js.noUndefList : List Js → Bool
  | [] => true
  | x :: t => x.noUndef && Js.noUndefList t

def Js.noUndefObj : List (Str × Js) → Bool
  | [] => true
  | (_, v) :: t => v.noUndef && Js.noUndefObj t

end

mutual

/-- Structural size of a JSON value, used as parser fuel. -/
def Js.size : Js → Nat
  | .arr xs => 1 + Js.sizeElems xs
  | .obj kvs => 1 + Js.sizeMembers kvs
  | _ => 1

def Js.sizeElems : List Js → Nat
  | [] => 0
  | x :: t => 1 + x.size + Js.sizeElems t

def Js.sizeMembers : List (Str × Js) → Nat
  | [] => 0
  | (_, v) :: t => 1 + v.size + Js.sizeMembers t

end

/-! ## Host model: `JSON.stringify` -/

/-- Lower-case hex digit for `n < 16`. -/
def hexDigitChar (n : Nat) : Char :=
  if n < 10 then Char.ofNat (48 + n) else Char.ofNat (87 + n)

/-- How `JSON.stringify` escapes one character inside a string literal. -/
def escapeChar (c : Char) : Str :=
  if c = '"' then ['\\', '"']
  else if c = '\\' then ['\\', '\\']
  else if c = '\x08' then ['\\', 'b']
  else if c = '\t' then ['\\', 't']
  else if c = '\n' then ['\\', 'n']
  else if c = '\x0c' then ['\\', 'f']
  else if c = '\r' then ['\\', 'r']
  else if c.toNat < 0x20 then
    ['\\', 'u', '0', '0', hexDigitChar (c.toNat / 16), hexDigitChar (c.toNat % 16)]
  else [c]

def escapeStr : Str → Str
  | [] => []
  | c :: t => escapeChar c ++ escapeStr t

/-- A JSON string literal: quotes around the escaped body. -/
def quoteStr (s : Str) : Str := '"' :: (escapeStr s ++ ['"'])

/-- Decimal digits of a natural number, most significant first
(fuel-driven so that it reduces definitionally; `natDigits` supplies
sufficient fuel). -/
def natDigitsAux : Nat → Nat → Str
  | 0, _ => []
  | fuel + 1, n =>
    if n < 10 then [Char.ofNat (48 + n)]
    else natDigitsAux fuel (n / 10) ++ [Char.ofNat (48 + n % 10)]

/-- Decimal digits of a natural number, most significant first. -/
def natDigits (n : Nat) : Str := natDigitsAux (n + 1) n

/-- Decimal rendering of an integer (how JS prints an integral Number). -/
def intDigits (n : Int) : Str :=
  if n < 0 then '-' :: natDigits n.natAbs else natDigits n.toNat

mutual

/-- Host model: `JSON.stringify` (no indentation).  `undef` is rendered as
`null` (its behavior inside arrays); every theorem that mentions
`stringify` carries a `noUndef` hypothesis, so the `undef` clause is never
relied upon. -/
def Js.stringify : Js → Str
  | .undef => "null".toList
  | .null => "null".toList
  | .bool true => "true".toList
  | .bool false => "false".toList
  | .num n => intDigits n
  | .str s => quoteStr s
  | .arr xs => '[' :: (Js.stringifyElems xs ++ [']'])
  | .obj kvs => '\x7b' :: (Js.stringifyMembers kvs ++ ['\x7d'])

def Js.stringifyElems : List Js → Str
  | [] => []
  | [x] => x.stringify
  | x :: y :: t => x.stringify ++ (',' :: Js.stringifyElems (y :: t))

def Js.stringifyMembers : List (Str × Js) → Str
  | [] => []
  | [(k, v)] => quoteStr k ++ (':' :: v.stringify)
  | (k, v) :: m :: t =>
    quoteStr k ++ (':' :: (v.stringify ++ (',' :: Js.stringifyMembers (m :: t))))

end

/-! ## Host model: `JSON.parse`

A strict recursive-descent parser.  Divergences from the host, none of
which the theorems below depend on: numbers are parsed only in integer
form (no fraction/exponent — the embedded `Js.num` is an integer), and a
`\u` escape must denote a valid unicode scalar value. -/

/-- JSON token whitespace. -/
def isJsonWs (c : Char) : Bool :=
  c = ' ' || c = '\t' || c = '\n' || c = '\r'

def skipWs (s : Str) : Str := s.dropWhile isJsonWs

def hexVal? (c : Char) : Option Nat :=
  if '0' ≤ c ∧ c ≤ '9' then some (c.toNat - 48)
  else if 'a' ≤ c ∧ c ≤ 'f' then some (c.toNat - 87)
  else if 'A' ≤ c ∧ c ≤ 'F' then some (c.toNat - 55)
  else none

/-- Value of a single-character escape (`\n`, `\t`, …), `none` when the
escape is not recognized. -/
def escVal? (e : Char) : Option Char :=
  if e = '"' then some '"'
  else if e = '\\' then some '\\'
  else if e = '/' then some '/'
  else if e = 'b' then some '\x08'
  else if e = 'f' then some '\x0c'
  else if e = 'n' then some '\n'
  else if e = 'r' then some '\r'
  else if e = 't' then some '\t'
  else none

/-- Parse the body of a string literal (after the opening quote), up to and
including the closing quote. -/
def parseStrBody : Str → Option (Str × Str)
  | [] => none
  | c :: rest =>
    if c = '"' then some ([], rest)
    else if c = '\\' then
      match rest with
      | [] => none
      | e :: t =>
        if e = 'u' then
          match t with
          | a :: b :: c2 :: d :: t2 =>
            (do
              let va ← hexVal? a
              let vb ← hexVal? b
              let vc ← hexVal? c2
              let vd ← hexVal? d
              let n := ((va * 16 + vb) * 16 + vc) * 16 + vd
              if h : n.isValidChar then
                let p ← parseStrBody t2
                pure (Char.ofNatAux n h :: p.1, p.2)
              else none)
          | _ => none
        else
          match escVal? e with
          | none => none
          | some ch => (parseStrBody t).map (fun p => (ch :: p.1, p.2))
    else if c.toNat < 0x20 then none
    else (parseStrBody rest).map (fun p => (c :: p.1, p.2))

def digitVal (c : Char) : Nat := c.toNat - 48

/-- Parse an integer-form JSON number (optional minus, digits, no leading
zero). -/
def parseNum (s : Str) : Option (Js × Str) :=
  let neg : Bool := decide (s.head? = some '-')
  let s1 := if neg then s.tail else s
  let ds := s1.takeWhile Char.isDigit
  let rest := s1.dropWhile Char.isDigit
  if ds.isEmpty then none
  else if 1 < ds.length ∧ ds.head? = some '0' then none
  else
    let m : Nat := ds.foldl (fun acc c => acc * 10 + digitVal c) 0
    some (.num (if neg then -(m : Int) else (m : Int)), rest)

mutual

def parseVal : Nat → Str → Option (Js × Str)
  | 0, _ => none
  | fuel + 1, s =>
    match skipWs s with
    | '\x7b' :: rest =>
      (match skipWs rest with
       | '\x7d' :: r => some (.obj [], r)
       | r => (parseMembers fuel r).map (fun p => (.obj p.1, p.2)))
    | '[' :: rest =>
      (if (skipWs rest).head? = some ']' then some (.arr [], (skipWs rest).tail)
       else (parseElems fuel (skipWs rest)).map (fun p => (.arr p.1, p.2)))
    | '"' :: rest => (parseStrBody rest).map (fun p => (.str p.1, p.2))
    | 'n' :: 'u' :: 'l' :: 'l' :: rest => some (.null, rest)
    | 't' :: 'r' :: 'u' :: 'e' :: rest => some (.bool true, rest)
    | 'f' :: 'a' :: 'l' :: 's' :: 'e' :: rest => some (.bool false, rest)
    | s' => parseNum s'

def parseMembers : Nat → Str → Option (List (Str × Js) × Str)
  | 0, _ => none
  | fuel + 1, s =>
    match skipWs s with
    | '"' :: rest =>
      (match parseStrBody rest with
       | none => none
       | some (k, r1) =>
         match skipWs r1 with
         | ':' :: r2 =>
           (match parseVal fuel r2 with
            | none => none
            | some (v, r3) =>
              match skipWs r3 with
              | ',' :: r4 => (parseMembers fuel r4).map (fun p => ((k, v) :: p.1, p.2))
              | '\x7d' :: r4 => some ([(k, v)], r4)
              | _ => none)
         | _ => none)
    | _ => none

def parseElems : Nat → Str → Option (List Js × Str)
  | 0, _ => none
  | fuel + 1, s =>
    match parseVal fuel s with
    | none => none
    | some (v, r1) =>
      match skipWs r1 with
      | ',' :: r2 => (parseElems fuel r2).map (fun p => (v :: p.1, p.2))
      | ']' :: r2 => some ([v], r2)
      | _ => none

end

/-- Host model: `JSON.parse` — parse one value, allow only trailing
whitespace. -/
def jsonParse (s : Str) : Option Js :=
  match parseVal (s.length + 1) s with
  | some (v, rest) => if (skipWs rest).isEmpty then some v else none
  | none => none

/-! ## Round-trip: decimal digits -/

theorem natDigitsAux_irrel (n : Nat) : ∀ {f1 f2 : Nat}, n < f1 → n < f2 →
    natDigitsAux f1 n = natDigitsAux f2 n := by
  induction n using Nat.strong_induction_on with
  | _ n ih =>
    intro f1 f2 h1 h2
    match f1, f2 with
    | a + 1, b + 1 =>
      simp only [natDigitsAux]
      by_cases h10 : n < 10
      · simp [h10]
      · have hd : n / 10 < n := Nat.div_lt_self (by omega) (by omega)
        have ha : n / 10 < a := by omega
        have hb : n / 10 < b := by omega
        simp only [if_neg h10]
        rw [ih (n / 10) hd ha hb]

/-- Unfolding equation for `natDigits`. -/
theorem natDigits_eq (n : Nat) : natDigits n =
    if n < 10 then [Char.ofNat (48 + n)]
    else natDigits (n / 10) ++ [Char.ofNat (48 + n % 10)] := by
  show natDigitsAux (n + 1) n = _
  simp only [natDigitsAux]
  split
  · rfl
  · rename_i h10
    have hd : n / 10 < n := Nat.div_lt_self (by omega) (by omega)
    rw [@natDigitsAux_irrel (n / 10) n (n / 10 + 1) hd (Nat.lt_succ_self _)]
    rfl

theorem digit_isDigit {d : Nat} (h : d < 10) : (Char.ofNat (48 + d)).isDigit = true := by
  interval_cases d <;> decide

theorem digitVal_ofNat {d : Nat} (h : d < 10) : digitVal (Char.ofNat (48 + d)) = d := by
  interval_cases d <;> decide

theorem natDigits_ne_nil (n : Nat) : natDigits n ≠ [] := by
  rw [natDigits_eq]
  split <;> simp

theorem natDigits_digits (n : Nat) : ∀ c ∈ natDigits n, c.isDigit = true := by
  induction n using Nat.strong_induction_on with
  | _ n ih =>
    rw [natDigits_eq]
    split
    · rename_i h10
      intro c hc
      simp only [List.mem_singleton] at hc
      subst hc
      exact digit_isDigit h10
    · rename_i h10
      intro c hc
      have hd : n / 10 < n := Nat.div_lt_self (by omega) (by omega)
      rcases List.mem_append.mp hc with h | h
      · exact ih (n / 10) hd c h
      · simp only [List.mem_singleton] at h
        subst h
        exact digit_isDigit (Nat.mod_lt _ (by omega))

theorem ofNat_digit_eq_zero_iff {d : Nat} (h : d < 10) :
    (Char.ofNat (48 + d) = '0') ↔ d = 0 := by
  interval_cases d <;> decide

theorem natDigits_head_ne_zero (n : Nat) (h : 10 ≤ n) :
    (natDigits n).head? ≠ some '0' := by
  induction n using Nat.strong_induction_on with
  | _ n ih =>
    intro h0
    rw [natDigits_eq, if_neg (by omega)] at h0
    rw [List.head?_append_of_ne_nil _ (natDigits_ne_nil (n / 10))] at h0
    rcases Nat.lt_or_ge (n / 10) 10 with hlt | hge
    · have h1 : 1 ≤ n / 10 := Nat.one_le_div_iff (by omega) |>.mpr (by omega)
      rw [natDigits_eq, if_pos hlt] at h0
      simp only [List.head?_cons, Option.some.injEq] at h0
      have := (ofNat_digit_eq_zero_iff hlt).mp h0
      omega
    · exact ih (n / 10) (Nat.div_lt_self (by omega) (by omega)) hge h0

theorem foldl_natDigits (n : Nat) : ∀ acc : Nat,
    (natDigits n).foldl (fun a c => a * 10 + digitVal c) acc =
      acc * 10 ^ (natDigits n).length + n := by
  induction n using Nat.strong_induction_on with
  | _ n ih =>
    intro acc
    rw [natDigits_eq]
    split
    · rename_i h10
      simp [List.foldl, digitVal_ofNat h10]
    · rename_i h10
      have hd : n / 10 < n := Nat.div_lt_self (by omega) (by omega)
      rw [List.foldl_append, ih (n / 10) hd acc]
      simp only [List.foldl, List.length_append, List.length_singleton]
      rw [digitVal_ofNat (Nat.mod_lt _ (by omega))]
      have hmod : 10 * (n / 10) + n % 10 = n := Nat.div_add_mod n 10
      calc (acc * 10 ^ (natDigits (n / 10)).length + n / 10) * 10 + n % 10
          = acc * (10 ^ (natDigits (n / 10)).length * 10) +
              (10 * (n / 10) + n % 10) := by ring
        _ = acc * 10 ^ ((natDigits (n / 10)).length + 1) + n := by
              rw [hmod, pow_succ]

/-- `p` rejects the head of the list (vacuously true for `[]`). -/
def headNot (p : Char → Bool) : Str → Bool
  | [] => true
  | c :: _ => !p c

theorem takeWhile_append_all {p : Char → Bool} : ∀ (xs : Str) {ys : Str},
    (∀ c ∈ xs, p c = true) → headNot p ys = true →
    (xs ++ ys).takeWhile p = xs ∧ (xs ++ ys).dropWhile p = ys := by
  intro xs
  induction xs with
  | nil =>
    intro ys _ hy
    cases ys with
    | nil => simp
    | cons c t =>
      simp only [headNot, Bool.not_eq_true'] at hy
      simp [List.takeWhile, List.dropWhile, hy]
  | cons x xt ih =>
    intro ys hx hy
    have hpx : p x = true := hx x (List.mem_cons_self _ _)
    have := ih (fun c hc => hx c (List.mem_cons_of_mem _ hc)) hy
    simp [List.takeWhile, List.dropWhile, hpx, this.1, this.2]

theorem isDigit_ne_dash {c : Char} (h : c.isDigit = true) : c ≠ '-' := by
  intro rfl0
  subst rfl0
  exact absurd h (by decide)

theorem numParts (m : Nat) {rest : Str} (h : headNot Char.isDigit rest = true) :
    ((natDigits m ++ rest).takeWhile Char.isDigit = natDigits m) ∧
    ((natDigits m ++ rest).dropWhile Char.isDigit = rest) ∧
    ((natDigits m).isEmpty = false) ∧
    (¬(1 < (natDigits m).length ∧ (natDigits m).head? = some '0')) ∧
    ((natDigits m).foldl (fun a c => a * 10 + digitVal c) 0 = m) := by
  obtain ⟨htw, hdw⟩ := takeWhile_append_all (natDigits m) (natDigits_digits m) h
  refine ⟨htw, hdw, ?_, ?_, ?_⟩
  · simp [List.isEmpty_iff, natDigits_ne_nil m]
  · rintro ⟨hlen, hhd⟩
    rcases Nat.lt_or_ge m 10 with hlt | hge
    · rw [natDigits_eq, if_pos hlt] at hlen
      simp at hlen
    · exact natDigits_head_ne_zero m hge hhd
  · have := foldl_natDigits m 0
    simpa using this


theorem parseNum_intDigits (n : Int) (rest : Str)
    (h : headNot Char.isDigit rest = true) :
    parseNum (intDigits n ++ rest) = some (.num n, rest) := by
  by_cases hneg : n < 0
  · have hs : intDigits n ++ rest = '-' :: (natDigits n.natAbs ++ rest) := by
      simp [intDigits, if_pos hneg]
    obtain ⟨htw, hdw, hne, hlz, hfold⟩ := numParts n.natAbs h
    rw [hs]
    simp only [parseNum, List.head?_cons, List.tail_cons, decide_True, if_true,
      htw, hdw, hne, Bool.false_eq_true, if_false, hfold]
    rw [if_neg hlz]
    simp only [Option.some.injEq, Prod.mk.injEq, Js.num.injEq]
    exact ⟨by omega, trivial⟩
  · have hs : intDigits n ++ rest = natDigits n.toNat ++ rest := by
      simp [intDigits, if_neg hneg]
    obtain ⟨c, t, hct⟩ : ∃ c t, natDigits n.toNat = c :: t := by
      cases hnd : natDigits n.toNat with
      | nil => exact absurd hnd (natDigits_ne_nil _)
      | cons c t => exact ⟨_, _, rfl⟩
    have hcd : c.isDigit = true := by
      apply natDigits_digits n.toNat
      rw [hct]
      exact List.mem_cons_self _ _
    obtain ⟨htw, hdw, hne, hlz, hfold⟩ := numParts n.toNat h
    have hhd : (natDigits n.toNat ++ rest).head? = some c := by
      rw [hct]
      rfl
    have hdec : decide ((natDigits n.toNat ++ rest).head? = some '-') = false := by
      rw [hhd]
      simp [isDigit_ne_dash hcd]
    rw [hs]
    simp only [parseNum, hdec, Bool.false_eq_true, if_false, htw, hdw, hne, hfold]
    rw [if_neg hlz]
    simp only [Option.some.injEq, Prod.mk.injEq, Js.num.injEq]
    exact ⟨by omega, trivial⟩

theorem hexVal_hexDigitChar : ∀ m : Nat, m < 16 → hexVal? (hexDigitChar m) = some m := by
  decide

theorem ofNatAux_eq_ofNat (n : Nat) (h : n.isValidChar) :
    Char.ofNatAux n h = Char.ofNat n := by
  simp [Char.ofNat, h]

theorem parseStrBody_escape : ∀ (s rest : Str),
    parseStrBody (escapeStr s ++ '"' :: rest) = some (s, rest) := by
  intro s
  induction s with
  | nil =>
    intro rest
    show parseStrBody ('"' :: rest) = _
    rw [parseStrBody.eq_def]
    simp
  | cons c t ih =>
    intro rest
    show parseStrBody ((escapeChar c ++ escapeStr t) ++ '"' :: rest) = _
    rw [List.append_assoc]
    by_cases h1 : c = '"'
    · subst h1
      have he : escapeChar '"' = ['\\', '"'] := by simp [escapeChar]
      rw [he]
      show parseStrBody ('\\' :: '"' :: (escapeStr t ++ '"' :: rest)) = _
      rw [parseStrBody.eq_def]
      simp [escVal?, ih rest]
    by_cases h2 : c = '\\'
    · subst h2
      have he : escapeChar '\\' = ['\\', '\\'] := by simp [escapeChar]
      rw [he]
      show parseStrBody ('\\' :: '\\' :: (escapeStr t ++ '"' :: rest)) = _
      rw [parseStrBody.eq_def]
      simp [escVal?, ih rest]
    by_cases h3 : c = '\x08'
    · subst h3
      have he : escapeChar '\x08' = ['\\', 'b'] := by simp [escapeChar]
      rw [he]
      show parseStrBody ('\\' :: 'b' :: (escapeStr t ++ '"' :: rest)) = _
      rw [parseStrBody.eq_def]
      simp [escVal?, ih rest]
    by_cases h4 : c = '\t'
    · subst h4
      have he : escapeChar '\t' = ['\\', 't'] := by simp [escapeChar]
      rw [he]
      show parseStrBody ('\\' :: 't' :: (escapeStr t ++ '"' :: rest)) = _
      rw [parseStrBody.eq_def]
      simp [escVal?, ih rest]
    by_cases h5 : c = '\n'
    · subst h5
      have he : escapeChar '\n' = ['\\', 'n'] := by simp [escapeChar]
      rw [he]
      show parseStrBody ('\\' :: 'n' :: (escapeStr t ++ '"' :: rest)) = _
      rw [parseStrBody.eq_def]
      simp [escVal?, ih rest]
    by_cases h6 : c = '\x0c'
    · subst h6
      have he : escapeChar '\x0c' = ['\\', 'f'] := by simp [escapeChar]
      rw [he]
      show parseStrBody ('\\' :: 'f' :: (escapeStr t ++ '"' :: rest)) = _
      rw [parseStrBody.eq_def]
      simp [escVal?, ih rest]
    by_cases h7 : c = '\r'
    · subst h7
      have he : escapeChar '\r' = ['\\', 'r'] := by simp [escapeChar]
      rw [he]
      show parseStrBody ('\\' :: 'r' :: (escapeStr t ++ '"' :: rest)) = _
      rw [parseStrBody.eq_def]
      simp [escVal?, ih rest]
    by_cases h8 : c.toNat < 0x20
    · have hesc : escapeChar c =
          ['\\', 'u', '0', '0', hexDigitChar (c.toNat / 16), hexDigitChar (c.toNat % 16)] := by
        simp [escapeChar, h1, h2, h3, h4, h5, h6, h7, h8]
      rw [hesc]
      have hvalid : (c.toNat).isValidChar := Or.inl (by omega)
      have hhi := hexVal_hexDigitChar (c.toNat / 16) (by omega)
      have hlo := hexVal_hexDigitChar (c.toNat % 16) (by omega)
      show parseStrBody ('\\' :: 'u' :: '0' :: '0' ::
          hexDigitChar (c.toNat / 16) :: hexDigitChar (c.toNat % 16) ::
          (escapeStr t ++ '"' :: rest)) = _
      rw [parseStrBody.eq_def]
      simp only [reduceIte, reduceCtorEq, hhi, hlo, Option.bind_eq_bind,
        Option.some_bind]
      have hz : hexVal? '0' = some 0 := by decide
      rw [hz]
      simp only [Option.some_bind]
      have hn : ((0 * 16 + 0) * 16 + c.toNat / 16) * 16 + c.toNat % 16 = c.toNat := by
        omega
      rw [hn]
      rw [dif_pos hvalid]
      rw [ofNatAux_eq_ofNat _ hvalid]
      simp [ih rest]
    · have hesc : escapeChar c = [c] := by
        simp [escapeChar, h1, h2, h3, h4, h5, h6, h7, h8]
      rw [hesc]
      simp only [List.cons_append, List.nil_append]
      rw [parseStrBody.eq_def]
      simp [h1, h2, h8, ih rest]

theorem skipWs_cons_of {c : Char} (h : isJsonWs c = false) (t : Str) :
    skipWs (c :: t) = c :: t := by
  simp [skipWs, List.dropWhile, h]

/-- Valid continuations after a serialized value: end of input or a
separator/closer. -/
def sepOk : Str → Bool
  | [] => true
  | c :: _ => c = ',' || c = '\x7d' || c = ']'

theorem sepOk_headNot {rest : Str} (h : sepOk rest = true) :
    headNot Char.isDigit rest = true := by
  cases rest with
  | nil => rfl
  | cons c t =>
    by_contra hcon
    simp only [headNot, Bool.not_eq_true', Bool.not_eq_false] at hcon
    have h1 : c ≠ ',' := fun he => absurd (he ▸ hcon) (by decide)
    have h2 : c ≠ '\x7d' := fun he => absurd (he ▸ hcon) (by decide)
    have h3 : c ≠ ']' := fun he => absurd (he ▸ hcon) (by decide)
    simp [sepOk, h1, h2, h3] at h

theorem ws_cases {c : Char} (h : isJsonWs c = true) :
    c = ' ' ∨ c = '\t' ∨ c = '\n' ∨ c = '\r' := by
  by_contra hcon
  push_neg at hcon
  obtain ⟨h1, h2, h3, h4⟩ := hcon
  simp [isJsonWs, h1, h2, h3, h4] at h

theorem digit_not_ws {c : Char} (h : c.isDigit = true) : isJsonWs c = false := by
  cases hc : isJsonWs c with
  | false => rfl
  | true =>
    exfalso
    rcases ws_cases hc with rfl | rfl | rfl | rfl <;> exact absurd h (by decide)

theorem numHead_ne {c : Char} (h : c = '-' ∨ c.isDigit = true) :
    c ≠ '\x7b' ∧ c ≠ '[' ∧ c ≠ '"' ∧ c ≠ 'n' ∧ c ≠ 't' ∧ c ≠ 'f' ∧
      c ≠ ']' ∧ c ≠ '\x7d' := by
  rcases h with rfl | h
  · refine ⟨?_, ?_, ?_, ?_, ?_, ?_, ?_, ?_⟩ <;> decide
  · refine ⟨?_, ?_, ?_, ?_, ?_, ?_, ?_, ?_⟩ <;>
      (intro hc; subst hc; exact absurd h (by decide))

theorem intDigits_shape (n : Int) :
    ∃ c t, intDigits n = c :: t ∧ (c = '-' ∨ c.isDigit = true) := by
  by_cases hneg : n < 0
  · exact ⟨'-', natDigits n.natAbs, by simp [intDigits, hneg], Or.inl rfl⟩
  · obtain ⟨c, t, hct⟩ : ∃ c t, natDigits n.toNat = c :: t := by
      cases hnd : natDigits n.toNat with
      | nil => exact absurd hnd (natDigits_ne_nil _)
      | cons c t => exact ⟨_, _, rfl⟩
    refine ⟨c, t, by simp [intDigits, hneg, hct], Or.inr ?_⟩
    apply natDigits_digits n.toNat
    rw [hct]
    exact List.mem_cons_self _ _

/-- The first character of any serialized value: nonempty, not whitespace,
and not a closer. -/
theorem stringify_shape (v : Js) :
    ∃ c t, v.stringify = c :: t ∧ isJsonWs c = false ∧ c ≠ ']' ∧ c ≠ '\x7d' := by
  cases v with
  | undef => exact ⟨'n', _, rfl, by decide, by decide, by decide⟩
  | null => exact ⟨'n', _, rfl, by decide, by decide, by decide⟩
  | bool b => cases b
              · exact ⟨'f', _, rfl, by decide, by decide, by decide⟩
              · exact ⟨'t', _, rfl, by decide, by decide, by decide⟩
  | num n =>
    obtain ⟨c, t, hct, hc⟩ := intDigits_shape n
    refine ⟨c, t, hct, ?_, (numHead_ne hc).2.2.2.2.2.2.1, (numHead_ne hc).2.2.2.2.2.2.2⟩
    rcases hc with rfl | hd
    · decide
    · exact digit_not_ws hd
  | str s => exact ⟨'"', _, rfl, by decide, by decide, by decide⟩
  | arr xs => exact ⟨'[', _, rfl, by decide, by decide, by decide⟩
  | obj kvs => exact ⟨'\x7b', _, rfl, by decide, by decide, by decide⟩

theorem Js.size_pos (v : Js) : 1 ≤ v.size := by
  cases v <;> simp [Js.size]

theorem stringifyElems_shape (x : Js) (xt : List Js) :
    ∃ c t, Js.stringifyElems (x :: xt) = c :: t ∧ isJsonWs c = false ∧
      c ≠ ']' ∧ c ≠ '\x7d' := by
  obtain ⟨c, t, hct, h1, h2, h3⟩ := stringify_shape x
  cases xt with
  | nil => exact ⟨c, t, by simp [Js.stringifyElems, hct], h1, h2, h3⟩
  | cons y yt =>
    exact ⟨c, t ++ (',' :: Js.stringifyElems (y :: yt)),
      by simp [Js.stringifyElems, hct], h1, h2, h3⟩

theorem stringifyMembers_shape (k : Str) (v : Js) (kvt : List (Str × Js)) :
    ∃ t, Js.stringifyMembers ((k, v) :: kvt) = '"' :: t := by
  cases kvt with
  | nil =>
    refine ⟨escapeStr k ++ ['"'] ++ (':' :: Js.stringify v), ?_⟩
    simp [Js.stringifyMembers, quoteStr]
  | cons m mt =>
    obtain ⟨k2, v2⟩ := m
    refine ⟨escapeStr k ++ ['"'] ++
      (':' :: (Js.stringify v ++ (',' :: Js.stringifyMembers ((k2, v2) :: mt)))), ?_⟩
    simp [Js.stringifyMembers, quoteStr]

mutual

theorem parseVal_rt : ∀ (fuel : Nat) (v : Js) (rest : Str),
    v.noUndef = true → v.size ≤ fuel → sepOk rest = true →
    parseVal fuel (v.stringify ++ rest) = some (v, rest)
  | 0, v, rest => by
    intro _ hsz _
    exact absurd hsz (by have := Js.size_pos v; omega)
  | fuel + 1, v, rest => by
    intro hnu hsz hsep
    cases v with
    | undef => simp [Js.noUndef] at hnu
    | null =>
      show parseVal (fuel + 1) ('n' :: 'u' :: 'l' :: 'l' :: rest) = _
      simp [parseVal, skipWs, List.dropWhile, isJsonWs]
    | bool b =>
      cases b with
      | false =>
        show parseVal (fuel + 1) ('f' :: 'a' :: 'l' :: 's' :: 'e' :: rest) = _
        simp [parseVal, skipWs, List.dropWhile, isJsonWs]
      | true =>
        show parseVal (fuel + 1) ('t' :: 'r' :: 'u' :: 'e' :: rest) = _
        simp [parseVal, skipWs, List.dropWhile, isJsonWs]
    | str s =>
      show parseVal (fuel + 1) (quoteStr s ++ rest) = _
      have h1 : quoteStr s ++ rest = '"' :: (escapeStr s ++ '"' :: rest) := by
        simp [quoteStr]
      rw [h1]
      simp [parseVal, skipWs, List.dropWhile, isJsonWs, parseStrBody_escape s rest]
    | num n =>
      obtain ⟨c0, t0, hshape, hc⟩ := intDigits_shape n
      have hnws : isJsonWs c0 = false := by
        rcases hc with rfl | hd
        · decide
        · exact digit_not_ws hd
      obtain ⟨hn1, hn2, hn3, hn4, hn5, hn6, _, _⟩ := numHead_ne hc
      have hpn := parseNum_intDigits n rest (sepOk_headNot hsep)
      show parseVal (fuel + 1) (intDigits n ++ rest) = _
      rw [hshape] at hpn ⊢
      rw [List.cons_append] at hpn ⊢
      rw [parseVal.eq_def]
      dsimp only
      rw [skipWs_cons_of hnws]
      split <;> simp_all
    | arr xs =>
      cases xs with
      | nil =>
        show parseVal (fuel + 1) ('[' :: ']' :: rest) = _
        simp [parseVal, skipWs, List.dropWhile, isJsonWs]
      | cons x xt =>
        have hsz' : Js.sizeElems (x :: xt) ≤ fuel := by
          simp only [Js.size] at hsz
          omega
        have hnu' : Js.noUndefList (x :: xt) = true := by
          simpa [Js.noUndef] using hnu
        have hrec := parseElems_rt fuel (x :: xt) rest (by simp) hnu' hsz'
        obtain ⟨c1, t1, hse, hw1, hne1, _⟩ := stringifyElems_shape x xt
        show parseVal (fuel + 1)
          (('[' :: (Js.stringifyElems (x :: xt) ++ [']'])) ++ rest) = _
        have hflat : (('[' :: (Js.stringifyElems (x :: xt) ++ [']'])) ++ rest)
            = '[' :: (Js.stringifyElems (x :: xt) ++ ']' :: rest) := by simp
        rw [hflat]
        rw [hse] at hrec ⊢
        rw [List.cons_append] at hrec ⊢
        have hskip1 : skipWs (c1 :: (t1 ++ ']' :: rest)) = c1 :: (t1 ++ ']' :: rest) :=
          skipWs_cons_of hw1 _
        simp [parseVal, skipWs_cons_of (by decide : isJsonWs '[' = false), hskip1,
          hne1, hrec]
    | obj kvs =>
      cases kvs with
      | nil =>
        show parseVal (fuel + 1) ('\x7b' :: '\x7d' :: rest) = _
        simp [parseVal, skipWs, List.dropWhile, isJsonWs]
      | cons kv kvt =>
        obtain ⟨k, v⟩ := kv
        have hsz' : Js.sizeMembers ((k, v) :: kvt) ≤ fuel := by
          simp only [Js.size] at hsz
          omega
        have hnu' : Js.noUndefObj ((k, v) :: kvt) = true := by
          simpa [Js.noUndef] using hnu
        have hrec := parseMembers_rt fuel ((k, v) :: kvt) rest (by simp) hnu' hsz'
        obtain ⟨t1, hsm⟩ := stringifyMembers_shape k v kvt
        show parseVal (fuel + 1)
          (('\x7b' :: (Js.stringifyMembers ((k, v) :: kvt) ++ ['\x7d'])) ++ rest) = _
        have hflat : (('\x7b' :: (Js.stringifyMembers ((k, v) :: kvt) ++ ['\x7d'])) ++ rest)
            = '\x7b' :: (Js.stringifyMembers ((k, v) :: kvt) ++ '\x7d' :: rest) := by simp
        rw [hflat]
        rw [hsm] at hrec ⊢
        rw [List.cons_append] at hrec ⊢
        simp [parseVal, skipWs, List.dropWhile, isJsonWs, hrec]

theorem parseMembers_rt : ∀ (fuel : Nat) (kvs : List (Str × Js)) (rest : Str),
    kvs ≠ [] → Js.noUndefObj kvs = true → Js.sizeMembers kvs ≤ fuel →
    parseMembers fuel (Js.stringifyMembers kvs ++ '\x7d' :: rest) = some (kvs, rest)
  | 0, kvs, rest => by
    intro hne hnu hsz
    match kvs with
    | [] => exact absurd rfl hne
    | (k, v) :: kvt =>
      exfalso
      simp only [Js.sizeMembers] at hsz
      have := Js.size_pos v
      omega
  | fuel + 1, [], rest => by
    intro hne _ _
    exact absurd rfl hne
  | fuel + 1, (k, v) :: kvt, rest => by
    intro _ hnu hsz
    have hnuv : v.noUndef = true := by
      simp only [Js.noUndefObj, Bool.and_eq_true] at hnu
      exact hnu.1
    cases kvt with
    | nil =>
      have hszv : v.size ≤ fuel := by
        simp only [Js.sizeMembers] at hsz
        omega
      have hval := parseVal_rt fuel v ('\x7d' :: rest) hnuv hszv (by simp [sepOk])
      show parseMembers (fuel + 1)
        ((quoteStr k ++ (':' :: Js.stringify v)) ++ '\x7d' :: rest) = _
      have h1 : (quoteStr k ++ (':' :: Js.stringify v)) ++ '\x7d' :: rest
          = '"' :: (escapeStr k ++ '"' :: (':' :: (Js.stringify v ++ '\x7d' :: rest))) := by
        simp [quoteStr]
      rw [h1]
      simp [parseMembers, skipWs, List.dropWhile, isJsonWs, parseStrBody_escape, hval]
    | cons m mt =>
      obtain ⟨k2, v2⟩ := m
      have hszv : v.size ≤ fuel := by
        simp only [Js.sizeMembers] at hsz
        omega
      have hszr : Js.sizeMembers ((k2, v2) :: mt) ≤ fuel := by
        simp only [Js.sizeMembers] at hsz ⊢
        omega
      have hnur : Js.noUndefObj ((k2, v2) :: mt) = true := by
        simp only [Js.noUndefObj, Bool.and_eq_true] at hnu ⊢
        exact hnu.2
      have hval := parseVal_rt fuel v
        (',' :: (Js.stringifyMembers ((k2, v2) :: mt) ++ '\x7d' :: rest)) hnuv hszv
        (by simp [sepOk])
      have hmem := parseMembers_rt fuel ((k2, v2) :: mt) rest (by simp) hnur hszr
      show parseMembers (fuel + 1)
        ((quoteStr k ++ (':' :: (Js.stringify v ++
          (',' :: Js.stringifyMembers ((k2, v2) :: mt))))) ++ '\x7d' :: rest) = _
      have h1 : (quoteStr k ++ (':' :: (Js.stringify v ++
            (',' :: Js.stringifyMembers ((k2, v2) :: mt))))) ++ '\x7d' :: rest
          = '"' :: (escapeStr k ++ '"' ::
              (':' :: (Js.stringify v ++
                ',' :: (Js.stringifyMembers ((k2, v2) :: mt) ++ '\x7d' :: rest)))) := by
        simp [quoteStr]
      rw [h1]
      simp [parseMembers, skipWs, List.dropWhile, isJsonWs, parseStrBody_escape,
        hval, hmem]

theorem parseElems_rt : ∀ (fuel : Nat) (xs : List Js) (rest : Str),
    xs ≠ [] → Js.noUndefList xs = true → Js.sizeElems xs ≤ fuel →
    parseElems fuel (Js.stringifyElems xs ++ ']' :: rest) = some (xs, rest)
  | 0, xs, rest => by
    intro hne hnu hsz
    match xs with
    | [] => exact absurd rfl hne
    | x :: xt =>
      exfalso
      simp only [Js.sizeElems] at hsz
      have := Js.size_pos x
      omega
  | fuel + 1, [], rest => by
    intro hne _ _
    exact absurd rfl hne
  | fuel + 1, x :: xt, rest => by
    intro _ hnu hsz
    have hnux : x.noUndef = true := by
      simp only [Js.noUndefList, Bool.and_eq_true] at hnu
      exact hnu.1
    cases xt with
    | nil =>
      have hszx : x.size ≤ fuel := by
        simp only [Js.sizeElems] at hsz
        omega
      have hval := parseVal_rt fuel x (']' :: rest) hnux hszx (by simp [sepOk])
      show parseElems (fuel + 1) (Js.stringify x ++ ']' :: rest) = _
      simp [parseElems, hval, skipWs, List.dropWhile, isJsonWs]
    | cons y yt =>
      have hszx : x.size ≤ fuel := by
        simp only [Js.sizeElems] at hsz
        omega
      have hszr : Js.sizeElems (y :: yt) ≤ fuel := by
        simp only [Js.sizeElems] at hsz ⊢
        omega
      have hnur : Js.noUndefList (y :: yt) = true := by
        simp only [Js.noUndefList, Bool.and_eq_true] at hnu ⊢
        exact hnu.2
      have hval := parseVal_rt fuel x
        (',' :: (Js.stringifyElems (y :: yt) ++ ']' :: rest)) hnux hszx
        (by simp [sepOk])
      have helems := parseElems_rt fuel (y :: yt) rest (by simp) hnur hszr
      show parseElems (fuel + 1)
        ((Js.stringify x ++ (',' :: Js.stringifyElems (y :: yt))) ++ ']' :: rest) = _
      have h1 : (Js.stringify x ++ (',' :: Js.stringifyElems (y :: yt))) ++ ']' :: rest
          = Js.stringify x ++ ',' :: (Js.stringifyElems (y :: yt) ++ ']' :: rest) := by
        simp
      rw [h1]
      simp [parseElems, hval, helems, skipWs, List.dropWhile, isJsonWs]

end

mutual

theorem size_le_len : ∀ v : Js, Js.size v ≤ (Js.stringify v).length
  | .undef => by simp [Js.size, Js.stringify]
  | .null => by simp [Js.size, Js.stringify]
  | .bool b => by cases b <;> simp [Js.size, Js.stringify]
  | .num n => by
    obtain ⟨c, t, hct, _⟩ := intDigits_shape n
    simp [Js.size, Js.stringify, hct]
  | .str s => by simp [Js.size, Js.stringify, quoteStr]
  | .arr xs => by
    have h := sizeElems_le_len xs
    simp only [Js.size, Js.stringify, List.length_cons, List.length_append,
      List.length_nil]
    show 1 + Js.sizeElems xs ≤ (Js.stringifyElems xs).length + (0 + 1) + 1
    omega
  | .obj kvs => by
    have h := sizeMembers_le_len kvs
    simp only [Js.size, Js.stringify, List.length_cons, List.length_append,
      List.length_nil]
    show 1 + Js.sizeMembers kvs ≤ (Js.stringifyMembers kvs).length + (0 + 1) + 1
    omega

theorem sizeElems_le_len : ∀ xs : List Js,
    Js.sizeElems xs ≤ (Js.stringifyElems xs).length + 1
  | [] => by simp [Js.sizeElems, Js.stringifyElems]
  | [x] => by
    have := size_le_len x
    simp only [Js.sizeElems, Js.stringifyElems]
    omega
  | x :: y :: t => by
    have h1 := size_le_len x
    have h2 := sizeElems_le_len (y :: t)
    simp only [Js.sizeElems] at h2 ⊢
    simp only [Js.stringifyElems, List.length_append, List.length_cons]
    omega

theorem sizeMembers_le_len : ∀ kvs : List (Str × Js),
    Js.sizeMembers kvs ≤ (Js.stringifyMembers kvs).length + 1
  | [] => by simp [Js.sizeMembers, Js.stringifyMembers]
  | [(k, v)] => by
    have := size_le_len v
    simp only [Js.sizeMembers, Js.stringifyMembers, List.length_append,
      List.length_cons]
    omega
  | (k, v) :: m :: t => by
    have h1 := size_le_len v
    have h2 := sizeMembers_le_len (m :: t)
    obtain ⟨k2, v2⟩ := m
    simp only [Js.sizeMembers] at h2 ⊢
    simp only [Js.stringifyMembers, List.length_append, List.length_cons]
    omega

end

/-- Round-trip of the host models: parsing a serialized value recovers it. -/
theorem jsonParse_stringify (v : Js) (h : v.noUndef = true) :
    jsonParse (Js.stringify v) = some v := by
  unfold jsonParse
  have hfuel : Js.size v ≤ (Js.stringify v).length + 1 :=
    le_trans (size_le_len v) (by omega)
  have hrt := parseVal_rt ((Js.stringify v).length + 1) v [] h hfuel (by rfl)
  rw [List.append_nil] at hrt
  rw [hrt]
  simp [skipWs]

/-! ## The response parser (`parseAIResponse`, `src/unnamed/part_000`) -/

/-- The backtick character. -/
def bq : Char := Char.ofNat 96

/-- The three-backtick fence marker. -/
def tripleBq : Str := [bq, bq, bq]

/-- Host model: `s.replace(/```json\n?/g, '')` — left-to-right scan removing
every occurrence of three backticks followed by `json` and an optional
newline. -/
def stripJsonFences : Str → Str
  | [] => []
  | c :: c2 :: c3 :: 'j' :: 's' :: 'o' :: 'n' :: '\n' :: r =>
    if c = bq ∧ c2 = bq ∧ c3 = bq then stripJsonFences r
    else c :: stripJsonFences (c2 :: c3 :: 'j' :: 's' :: 'o' :: 'n' :: '\n' :: r)
  | c :: c2 :: c3 :: 'j' :: 's' :: 'o' :: 'n' :: r =>
    if c = bq ∧ c2 = bq ∧ c3 = bq then stripJsonFences r
    else c :: stripJsonFences (c2 :: c3 :: 'j' :: 's' :: 'o' :: 'n' :: r)
  | c :: t => c :: stripJsonFences t

/-- Host model: `s.replace(/```\n?/g, '')`. -/
def stripFences : Str → Str
  | [] => []
  | c :: c2 :: c3 :: '\n' :: r =>
    if c = bq ∧ c2 = bq ∧ c3 = bq then stripFences r
    else c :: stripFences (c2 :: c3 :: '\n' :: r)
  | c :: c2 :: c3 :: r =>
    if c = bq ∧ c2 = bq ∧ c3 = bq then stripFences r
    else c :: stripFences (c2 :: c3 :: r)
  | c :: t => c :: stripFences t

/-- No three consecutive backticks occur in `s`. -/
def noTriple (s : Str) : Bool := !containsSub s tripleBq

/-- Result of `parseAIResponse`: `{success:true, data, confidence}` or
`{success:false, error, rawResponse}`. -/
inductive AIResp where
  | success (data : Js) (confidence : ℚ)
  | failure (error : Str) (rawResponse : Str)
deriving DecidableEq, Repr

def AIResp.dataOf : AIResp → Option Js
  | .success d _ => some d
  | .failure _ _ => none

def AIResp.confOf : AIResp → Option ℚ
  | .success _ c => some c
  | .failure _ _ => none

/-- First-match association-list lookup (JS property access on an object
literal; object literals cannot carry duplicate keys). -/
def lookupKey : List (Str × Js) → Str → Option Js
  | [], _ => none
  | (k, v) :: t, key => if k = key then some v else lookupKey t key

/-- Simple member access as used by the confidence scorer (its receivers
are never `null`/`undefined` thanks to the source's truthiness guards, and
none of the accessed keys is `length`). -/
def getD (v : Js) (k : Str) : Js :=
  match v with
  | .obj kvs => (lookupKey kvs k).getD .undef
  | _ => Js.undef

/-- JavaScript truthiness on the embedded values. -/
def jsTruthy : Js → Bool
  | .undef => false
  | .null => false
  | .bool b => b
  | .num n => decide (n ≠ 0)
  | .str s => decide (s ≠ [])
  | .arr _ => true
  | .obj _ => true

/-- Host model: `Math.round` — half-up rounding. -/
def jsRound (q : ℚ) : ℤ := ⌊q + 1 / 2⌋

/-- Embedded from `calculateConfidence` (`src/unnamed/part_000`
lines 369–400): weighted presence scoring, accumulating `score` and
`maxScore` only for categories that are structurally present. -/
def calculateConfidence (data : Js) : ℚ :=
  let personal := getD data ("personal".toList)
  let pScore : ℚ :=
    if jsTruthy personal then
      (if jsTruthy (getD personal ("fullName".toList)) then 20 else 0) +
      (if jsTruthy (getD personal ("email".toList)) then 20 else 0) +
      (if jsTruthy (getD personal ("phone".toList)) then 10 else 0)
    else 0
  let pMax : ℚ := if jsTruthy personal then 50 else 0
  let eScore : ℚ :=
    match getD data ("experience".toList) with
    | .arr xs => if 0 < xs.length then (min (xs.length * 10) 30 : ℕ) else 0
    | _ => 0
  let eMax : ℚ :=
    match getD data ("experience".toList) with
    | .arr xs => if 0 < xs.length then 30 else 0
    | _ => 0
  let dScore : ℚ :=
    match getD data ("education".toList) with
    | .arr xs => if 0 < xs.length then (min (xs.length * 5) 10 : ℕ) else 0
    | _ => 0
  let dMax : ℚ :=
    match getD data ("education".toList) with
    | .arr xs => if 0 < xs.length then 10 else 0
    | _ => 0
  let skills := getD data ("skills".toList)
  let sHit : Bool := jsTruthy skills &&
    (jsTruthy (getD skills ("technical".toList)) ||
     jsTruthy (getD skills ("soft".toList)))
  let sScore : ℚ := if sHit then 10 else 0
  let sMax : ℚ := if sHit then 10 else 0
  let score := pScore + eScore + dScore + sScore
  let maxScore := pMax + eMax + dMax + sMax
  if 0 < maxScore then (jsRound (score / maxScore * 100) : ℚ) / 100 else 0

/-- Embedded from `parseAIResponse` (`src/unnamed/part_000` lines
329–364): trim; strip triple-backtick-json and triple-backtick fences;
drop everything before the first brace when its index is positive; drop
everything after the last closing brace when its index is positive; strict
JSON parse.  A parse exception — including the `TypeError` thrown by
`calculateConfidence` when the parsed value is `null` — yields the failure
shape carrying the raw response (the host exception text is not
modelled). -/
def parseAIResponse (response : Str) : AIResp :=
  let clean0 := jsTrim response
  let clean1 := stripFences (stripJsonFences clean0)
  let clean2 :=
    match idxOf? '\x7b' clean1 with
    | some i => if 0 < i then clean1.drop i else clean1
    | none => clean1
  let clean3 :=
    match lastIdxOf? '\x7d' clean2 with
    | some j => if 0 < j then clean2.take (j + 1) else clean2
    | none => clean2
  match jsonParse clean3 with
  | some .null => .failure ("Failed to parse AI response".toList) response
  | some v => .success v (calculateConfidence v)
  | none => .failure ("Failed to parse AI response".toList) response

theorem stripJson_cons_bq (x : Str) (h : ∀ r, x ≠ bq :: bq :: r) :
    stripJsonFences (bq :: x) = bq :: stripJsonFences x := by
  rw [stripJsonFences.eq_def]
  split
  · rename_i heq
    simp at heq
  · rename_i c c2 c3 r heq
    simp only [List.cons.injEq] at heq
    obtain ⟨hc, hx⟩ := heq
    subst hc
    by_cases hg : c2 = bq ∧ c3 = bq
    · exfalso
      obtain ⟨hg2, hg3⟩ := hg
      subst hg2 hg3
      exact absurd hx (h _)
    · rw [if_neg (by tauto), hx]
  · rename_i c c2 c3 r hprev heq
    simp only [List.cons.injEq] at heq
    obtain ⟨hc, hx⟩ := heq
    subst hc
    by_cases hg : c2 = bq ∧ c3 = bq
    · exfalso
      obtain ⟨hg2, hg3⟩ := hg
      subst hg2 hg3
      exact absurd hx (h _)
    · rw [if_neg (by tauto), hx]
  · rename_i hprev1 hprev2 heq
    simp only [List.cons.injEq] at heq
    obtain ⟨hc, hx⟩ := heq
    subst hc
    rw [hx]

theorem stripFences_cons_bq (x : Str) (h : ∀ r, x ≠ bq :: bq :: r) :
    stripFences (bq :: x) = bq :: stripFences x := by
  rw [stripFences.eq_def]
  split
  · rename_i heq
    simp at heq
  · rename_i c c2 c3 r heq
    simp only [List.cons.injEq] at heq
    obtain ⟨hc, hx⟩ := heq
    subst hc
    by_cases hg : c2 = bq ∧ c3 = bq
    · exfalso
      obtain ⟨hg2, hg3⟩ := hg
      subst hg2 hg3
      exact absurd hx (h _)
    · rw [if_neg (by tauto), hx]
  · rename_i c c2 c3 r hprev heq
    simp only [List.cons.injEq] at heq
    obtain ⟨hc, hx⟩ := heq
    subst hc
    by_cases hg : c2 = bq ∧ c3 = bq
    · exfalso
      obtain ⟨hg2, hg3⟩ := hg
      subst hg2 hg3
      exact absurd hx (h _)
    · rw [if_neg (by tauto), hx]
  · rename_i hprev1 hprev2 heq
    simp only [List.cons.injEq] at heq
    obtain ⟨hc, hx⟩ := heq
    subst hc
    rw [hx]

theorem containsSub_tail {c : Char} {t needle : Str}
    (h : containsSub (c :: t) needle = false) : containsSub t needle = false := by
  rw [containsSub.eq_def] at h
  simp only [Bool.or_eq_false_iff] at h
  exact h.2

theorem noTriple_tail {c : Char} {t : Str} (h : noTriple (c :: t) = true) :
    noTriple t = true := by
  simp only [noTriple, Bool.not_eq_true'] at h ⊢
  exact containsSub_tail h

theorem stripJson_cons_ne {c : Char} (hc : c ≠ bq) (x : Str) :
    stripJsonFences (c :: x) = c :: stripJsonFences x := by
  rw [stripJsonFences.eq_def]
  split <;> simp_all

theorem stripFences_cons_ne {c : Char} (hc : c ≠ bq) (x : Str) :
    stripFences (c :: x) = c :: stripFences x := by
  rw [stripFences.eq_def]
  split <;> simp_all

theorem noTriple_not_prefix {s : Str} (h : noTriple s = true) :
    ∀ r, s ≠ bq :: bq :: bq :: r := by
  intro r hr
  simp only [noTriple, Bool.not_eq_true'] at h
  rw [containsSub.eq_def] at h
  simp only [Bool.or_eq_false_iff] at h
  have := h.1
  rw [hr] at this
  simp [tripleBq, List.isPrefixOf] at this

/-- Scanning for fences distributes over an append whose right part does
not begin with a backtick. -/
theorem stripJson_append {S : Str} (y : Str) (hS : noTriple S = true)
    (hy : ∀ t, y ≠ bq :: t) :
    stripJsonFences (S ++ y) = S ++ stripJsonFences y := by
  induction S with
  | nil => simp
  | cons c St ih =>
    by_cases hc : c = bq
    · subst hc
      rw [List.cons_append, stripJson_cons_bq]
      · rw [ih (noTriple_tail hS)]
        simp
      · intro r hr
        match St, hr with
        | [], hr => exact hy _ (by simpa using hr)
        | [a], hr =>
          simp only [List.cons_append, List.nil_append, List.cons.injEq] at hr
          exact hy r hr.2
        | a :: b :: St', hr =>
          simp only [List.cons_append, List.cons.injEq] at hr
          exact noTriple_not_prefix hS St' (by rw [hr.1, hr.2.1])
    · rw [List.cons_append, stripJson_cons_ne hc, ih (noTriple_tail hS)]
      simp

theorem stripFences_append {S : Str} (y : Str) (hS : noTriple S = true)
    (hy : ∀ t, y ≠ bq :: t) :
    stripFences (S ++ y) = S ++ stripFences y := by
  induction S with
  | nil => simp
  | cons c St ih =>
    by_cases hc : c = bq
    · subst hc
      rw [List.cons_append, stripFences_cons_bq]
      · rw [ih (noTriple_tail hS)]
        simp
      · intro r hr
        match St, hr with
        | [], hr => exact hy _ (by simpa using hr)
        | [a], hr =>
          simp only [List.cons_append, List.nil_append, List.cons.injEq] at hr
          exact hy r hr.2
        | a :: b :: St', hr =>
          simp only [List.cons_append, List.cons.injEq] at hr
          exact noTriple_not_prefix hS St' (by rw [hr.1, hr.2.1])
    · rw [List.cons_append, stripFences_cons_ne hc, ih (noTriple_tail hS)]
      simp

theorem stripJson_id {S : Str} (hS : noTriple S = true) :
    stripJsonFences S = S := by
  have := stripJson_append [] hS (by intro t ht; simp at ht)
  simpa [stripJsonFences] using this

theorem stripFences_id {S : Str} (hS : noTriple S = true) :
    stripFences S = S := by
  have := stripFences_append [] hS (by intro t ht; simp at ht)
  simpa [stripFences] using this

theorem dropWhile_headNot {p : Char → Bool} {s : Str} (h : headNot p s = true) :
    s.dropWhile p = s := by
  cases s with
  | nil => rfl
  | cons c t =>
    simp only [headNot, Bool.not_eq_true'] at h
    simp [List.dropWhile, h]

theorem jsTrim_of {s : Str} (h1 : headNot jsWs s = true)
    (h2 : headNot jsWs s.reverse = true) : jsTrim s = s := by
  unfold jsTrim
  rw [dropWhile_headNot h1, dropWhile_headNot h2, List.reverse_reverse]

/-- Trimming an embedded non-blank core trims only the flanks. -/
theorem jsTrim_append_mid (p t : Str) {S : Str} (hS1 : headNot jsWs S = true)
    (hS2 : headNot jsWs S.reverse = true) (hne : S ≠ []) :
    jsTrim (p ++ S ++ t) =
      (p.dropWhile jsWs) ++ S ++ (t.reverse.dropWhile jsWs).reverse := by
  unfold jsTrim
  have hfront : (p ++ S ++ t).dropWhile jsWs = p.dropWhile jsWs ++ (S ++ t) := by
    rw [List.append_assoc, List.dropWhile_append]
    split
    · rename_i hemp
      simp only [List.isEmpty_iff] at hemp
      rw [hemp, List.nil_append, List.dropWhile_append]
      rw [dropWhile_headNot hS1]
      simp [List.isEmpty_iff, hne]
    · rfl
  rw [hfront]
  have h2 : (List.dropWhile jsWs p ++ (S ++ t)).reverse
      = t.reverse ++ (S.reverse ++ (List.dropWhile jsWs p).reverse) := by
    simp [List.reverse_append]
  rw [h2]
  rw [List.dropWhile_append]
  split
  · rename_i hemp
    rw [List.dropWhile_append, dropWhile_headNot hS2]
    have hrne : S.reverse ≠ [] := by simpa using hne
    rw [if_neg (by simpa [List.isEmpty_iff] using hrne)]
    simp only [List.isEmpty_iff] at hemp
    rw [hemp]
    simp [List.reverse_append]
  · simp [List.reverse_append]

theorem idxOf?_append_not_mem {c : Char} {p : Str} (h : c ∉ p) (y : Str) :
    idxOf? c (p ++ y) = (idxOf? c y).map (· + p.length) := by
  induction p with
  | nil =>
    simp only [List.nil_append, List.length_nil]
    cases idxOf? c y <;> simp
  | cons a pt ih =>
    have ha : a ≠ c := fun he => h (he ▸ List.mem_cons_self a pt)
    have h' : c ∉ pt := fun hm => h (List.mem_cons_of_mem _ hm)
    rw [List.cons_append]
    rw [show idxOf? c (a :: (pt ++ y)) = (idxOf? c (pt ++ y)).map (· + 1) from by
      simp [idxOf?, if_neg ha]]
    rw [ih h']
    cases idxOf? c y with
    | none => rfl
    | some v =>
      simp
      omega

theorem stripJson_noBq_append {p : Str} (h : bq ∉ p) (y : Str) :
    stripJsonFences (p ++ y) = p ++ stripJsonFences y := by
  induction p with
  | nil => simp
  | cons c pt ih =>
    have hc : c ≠ bq := fun he => h (he ▸ List.mem_cons_self c pt)
    have h' : bq ∉ pt := fun hm => h (List.mem_cons_of_mem _ hm)
    rw [List.cons_append, stripJson_cons_ne hc, ih h']
    rfl

theorem stripFences_noBq_append {p : Str} (h : bq ∉ p) (y : Str) :
    stripFences (p ++ y) = p ++ stripFences y := by
  induction p with
  | nil => simp
  | cons c pt ih =>
    have hc : c ≠ bq := fun he => h (he ▸ List.mem_cons_self c pt)
    have h' : bq ∉ pt := fun hm => h (List.mem_cons_of_mem _ hm)
    rw [List.cons_append, stripFences_cons_ne hc, ih h']
    rfl

theorem stripJson_noBq_id {p : Str} (h : bq ∉ p) : stripJsonFences p = p := by
  have := stripJson_noBq_append h []
  simpa [stripJsonFences] using this

theorem stripFences_noBq_id {p : Str} (h : bq ∉ p) : stripFences p = p := by
  have := stripFences_noBq_append h []
  simpa [stripFences] using this

/-- Reverse of a serialized object starts with the closing brace. -/
theorem stringify_obj_reverse (kvs : List (Str × Js)) :
    (Js.stringify (Js.obj kvs)).reverse
      = '\x7d' :: ((Js.stringifyMembers kvs).reverse ++ ['\x7b']) := by
  show ('\x7b' :: (Js.stringifyMembers kvs ++ ['\x7d'])).reverse = _
  simp

/-- If cleaning yields flanked serialized-object text, `parseAIResponse`
recovers the object: the brace trimming removes the flanks and the strict
parse round-trips. -/
theorem parseAIResponse_core {kvs : List (Str × Js)} {s : Str} (p t : Str)
    (hnu : (Js.obj kvs).noUndef = true)
    (heq : stripFences (stripJsonFences (jsTrim s))
      = p ++ (Js.stringify (Js.obj kvs) ++ t))
    (hp1 : '\x7b' ∉ p) (ht1 : '\x7d' ∉ t) :
    parseAIResponse s
      = .success (Js.obj kvs) (calculateConfidence (Js.obj kvs)) := by
  have hS : Js.stringify (Js.obj kvs)
      = '\x7b' :: (Js.stringifyMembers kvs ++ ['\x7d']) := rfl
  have hSlen : 2 ≤ (Js.stringify (Js.obj kvs)).length := by
    rw [hS]
    simp
  simp only [parseAIResponse]
  rw [heq]
  have hidx : idxOf? '\x7b' (p ++ (Js.stringify (Js.obj kvs) ++ t))
      = some p.length := by
    rw [idxOf?_append_not_mem hp1]
    rw [hS]
    simp [idxOf?]
  rw [hidx]
  dsimp only
  have hdrop : (p ++ (Js.stringify (Js.obj kvs) ++ t)).drop p.length
      = Js.stringify (Js.obj kvs) ++ t := List.drop_left p _
  have hafter : (if 0 < p.length
        then (p ++ (Js.stringify (Js.obj kvs) ++ t)).drop p.length
        else p ++ (Js.stringify (Js.obj kvs) ++ t))
      = Js.stringify (Js.obj kvs) ++ t := by
    split
    · exact hdrop
    · rename_i hlen
      have : p = [] := by
        cases p with
        | nil => rfl
        | cons a b => simp at hlen
      rw [this, List.nil_append]
  rw [hafter]
  have hlast : lastIdxOf? '\x7d' (Js.stringify (Js.obj kvs) ++ t)
      = some ((Js.stringify (Js.obj kvs)).length - 1) := by
    unfold lastIdxOf?
    rw [List.reverse_append]
    have ht1' : '\x7d' ∉ t.reverse := by simpa using ht1
    rw [idxOf?_append_not_mem ht1']
    rw [stringify_obj_reverse]
    simp only [idxOf?]
    simp
    omega
  rw [hlast]
  dsimp only
  have hj : 0 < (Js.stringify (Js.obj kvs)).length - 1 := by
    rw [hS]
    simp
  rw [if_pos hj]
  have htake : (Js.stringify (Js.obj kvs) ++ t).take
      ((Js.stringify (Js.obj kvs)).length - 1 + 1)
      = Js.stringify (Js.obj kvs) := by
    apply List.take_left'
    omega
  rw [htake]
  rw [jsonParse_stringify _ hnu]

theorem mem_of_mem_dropWhile {p : Char → Bool} {c : Char} {l : Str}
    (h : c ∈ l.dropWhile p) : c ∈ l :=
  (List.dropWhile_sublist p).mem h

/-- Plain round trip: `parseAIResponse` on the bare serialization. -/
theorem parseAIResponse_plain {kvs : List (Str × Js)}
    (hnu : (Js.obj kvs).noUndef = true)
    (hnb : noTriple (Js.stringify (Js.obj kvs)) = true) :
    parseAIResponse (Js.stringify (Js.obj kvs))
      = .success (Js.obj kvs) (calculateConfidence (Js.obj kvs)) := by
  apply parseAIResponse_core [] []
  · exact hnu
  · have h1 : headNot jsWs (Js.stringify (Js.obj kvs)) = true := by
      show headNot jsWs ('\x7b' :: (Js.stringifyMembers kvs ++ ['\x7d'])) = true
      simp [headNot, jsWs]
    have h2 : headNot jsWs (Js.stringify (Js.obj kvs)).reverse = true := by
      rw [stringify_obj_reverse]
      simp [headNot, jsWs]
    rw [jsTrim_of h1 h2, stripJson_id hnb, stripFences_id hnb]
    simp
  · simp
  · simp

/-- Fenced round trip: the `json` code fence is stripped and the object
recovered. -/
theorem parseAIResponse_fenced {kvs : List (Str × Js)}
    (hnu : (Js.obj kvs).noUndef = true)
    (hnb : noTriple (Js.stringify (Js.obj kvs)) = true) :
    parseAIResponse
        ("```json\n".toList ++ Js.stringify (Js.obj kvs) ++ "\n```".toList)
      = .success (Js.obj kvs) (calculateConfidence (Js.obj kvs)) := by
  have hfo : ("```json\n".toList : Str)
      = bq :: bq :: bq :: 'j' :: 's' :: 'o' :: 'n' :: '\n' :: [] := by decide
  have hfc : ("\n```".toList : Str) = '\n' :: tripleBq := by decide
  apply parseAIResponse_core [] ['\n']
  · exact hnu
  · have hshape : "```json\n".toList ++ Js.stringify (Js.obj kvs) ++ "\n```".toList
        = bq :: bq :: bq :: 'j' :: 's' :: 'o' :: 'n' :: '\n' ::
            (Js.stringify (Js.obj kvs) ++ ('\n' :: tripleBq)) := by
      rw [hfo, hfc]
      simp
    rw [hshape]
    have htrim : jsTrim (bq :: bq :: bq :: 'j' :: 's' :: 'o' :: 'n' :: '\n' ::
        (Js.stringify (Js.obj kvs) ++ ('\n' :: tripleBq)))
        = bq :: bq :: bq :: 'j' :: 's' :: 'o' :: 'n' :: '\n' ::
            (Js.stringify (Js.obj kvs) ++ ('\n' :: tripleBq)) := by
      apply jsTrim_of
      · simp [headNot, jsWs, bq]
      · have : (bq :: bq :: bq :: 'j' :: 's' :: 'o' :: 'n' :: '\n' ::
            (Js.stringify (Js.obj kvs) ++ ('\n' :: tripleBq))).reverse
            = bq :: (bq :: bq :: '\n' :: (Js.stringify (Js.obj kvs)).reverse ++
                ['\n', 'n', 'o', 's', 'j', bq, bq, bq]) := by
          simp [tripleBq]
        rw [this]
        simp [headNot, jsWs, bq]
    rw [htrim]
    have hstrip1 : stripJsonFences (bq :: bq :: bq :: 'j' :: 's' :: 'o' :: 'n' :: '\n' ::
        (Js.stringify (Js.obj kvs) ++ ('\n' :: tripleBq)))
        = Js.stringify (Js.obj kvs) ++ ('\n' :: tripleBq) := by
      rw [show stripJsonFences (bq :: bq :: bq :: 'j' :: 's' :: 'o' :: 'n' :: '\n' ::
          (Js.stringify (Js.obj kvs) ++ ('\n' :: tripleBq)))
          = stripJsonFences (Js.stringify (Js.obj kvs) ++ ('\n' :: tripleBq)) from by
        rw [stripJsonFences.eq_def]
        simp]
      rw [stripJson_append _ hnb (by intro t ht; simp [tripleBq] at ht; exact absurd ht.1 (by decide))]
      rw [show stripJsonFences ('\n' :: tripleBq) = '\n' :: tripleBq from by decide]
    rw [hstrip1]
    rw [stripFences_append _ hnb (by intro t ht; simp [tripleBq] at ht; exact absurd ht.1 (by decide))]
    rw [show stripFences ('\n' :: tripleBq) = ['\n'] from by decide]
    simp
  · simp
  · decide

/-- Prose-flanked round trip: leading prose without braces or backticks
and trailing text without closing braces or backticks are discarded. -/
theorem parseAIResponse_prose {kvs : List (Str × Js)} (prose trail : Str)
    (hnu : (Js.obj kvs).noUndef = true)
    (hnb : noTriple (Js.stringify (Js.obj kvs)) = true)
    (hp1 : '\x7b' ∉ prose) (hp2 : bq ∉ prose)
    (ht1 : '\x7d' ∉ trail) (ht2 : bq ∉ trail) :
    parseAIResponse (prose ++ Js.stringify (Js.obj kvs) ++ trail)
      = .success (Js.obj kvs) (calculateConfidence (Js.obj kvs)) := by
  have h1 : headNot jsWs (Js.stringify (Js.obj kvs)) = true := by
    show headNot jsWs ('\x7b' :: (Js.stringifyMembers kvs ++ ['\x7d'])) = true
    simp [headNot, jsWs]
  have h2 : headNot jsWs (Js.stringify (Js.obj kvs)).reverse = true := by
    rw [stringify_obj_reverse]
    simp [headNot, jsWs]
  have hSne : Js.stringify (Js.obj kvs) ≠ [] := by
    show '\x7b' :: (Js.stringifyMembers kvs ++ ['\x7d']) ≠ []
    simp
  have hmemp : ∀ c, c ∈ prose.dropWhile jsWs → c ∈ prose :=
    fun c hc => mem_of_mem_dropWhile hc
  have hmemt : ∀ c, c ∈ (trail.reverse.dropWhile jsWs).reverse → c ∈ trail := by
    intro c hc
    rw [List.mem_reverse] at hc
    have := mem_of_mem_dropWhile hc
    rwa [List.mem_reverse] at this
  apply parseAIResponse_core (prose.dropWhile jsWs)
      ((trail.reverse.dropWhile jsWs).reverse)
  · exact hnu
  · rw [jsTrim_append_mid prose trail h1 h2 hSne]
    have hpb : bq ∉ prose.dropWhile jsWs := fun hm => hp2 (hmemp _ hm)
    have htb : bq ∉ (trail.reverse.dropWhile jsWs).reverse :=
      fun hm => ht2 (hmemt _ hm)
    rw [List.append_assoc]
    rw [stripJson_noBq_append hpb]
    rw [stripJson_append _ hnb (by
      intro t0 ht0
      exact htb (ht0 ▸ List.mem_cons_self _ _))]
    rw [stripJson_noBq_id htb]
    rw [stripFences_noBq_append hpb]
    rw [stripFences_append _ hnb (by
      intro t0 ht0
      exact htb (ht0 ▸ List.mem_cons_self _ _))]
    rw [stripFences_noBq_id htb]
  · exact fun hm => hp1 (hmemp _ hm)
  · exact fun hm => ht1 (hmemt _ hm)

/-- The JSON object whose only value is the string made of three
backticks — its serialization contains a fence marker. -/
def c1CexObj : Js := Js.obj [("a".toList, Js.str "```".toList)]

/-- **C1** (counterexample): the round trip fails on `c1CexObj` — the
fence-stripping step deletes the backticks inside the serialized string
value, so the parser succeeds with the *wrong* object. -/
theorem C1_counterexample :
    AIResp.dataOf (parseAIResponse (Js.stringify c1CexObj)) ≠ some c1CexObj ∧
    AIResp.dataOf (parseAIResponse (Js.stringify c1CexObj))
      = some (Js.obj [("a".toList, Js.str [])]) := by
  constructor
  · decide
  · decide

/-- **C1** (amended): for every JSON object `O` whose serialization
contains no triple-backtick run, `parseAIResponse` applied to the plain
serialization returns success with exactly `O`; the same holds for the
serialization wrapped in a ```` ```json ```` fence, and for the
serialization flanked by prose (free of `{` and backticks) and trailing
text (free of `}` and backticks). -/
theorem C1_theorem (kvs : List (Str × Js)) (prose trail : Str)
    (hnu : (Js.obj kvs).noUndef = true)
    (hnb : noTriple (Js.stringify (Js.obj kvs)) = true)
    (hp1 : '\x7b' ∉ prose) (hp2 : bq ∉ prose)
    (ht1 : '\x7d' ∉ trail) (ht2 : bq ∉ trail) :
    parseAIResponse (Js.stringify (Js.obj kvs))
      = .success (Js.obj kvs) (calculateConfidence (Js.obj kvs)) ∧
    parseAIResponse
        ("```json\n".toList ++ Js.stringify (Js.obj kvs) ++ "\n```".toList)
      = .success (Js.obj kvs) (calculateConfidence (Js.obj kvs)) ∧
    parseAIResponse (prose ++ Js.stringify (Js.obj kvs) ++ trail)
      = .success (Js.obj kvs) (calculateConfidence (Js.obj kvs)) :=
  ⟨parseAIResponse_plain hnu hnb, parseAIResponse_fenced hnu hnb,
   parseAIResponse_prose prose trail hnu hnb hp1 hp2 ht1 ht2⟩

/-- Witness for `C1_theorem` at a concrete object and concrete flanks. -/
theorem C1_theorem_witness :
    parseAIResponse ("Sure: ".toList ++
        Js.stringify (Js.obj [("a".toList, Js.num 1)]) ++ " ok.".toList)
      = .success (Js.obj [("a".toList, Js.num 1)])
          (calculateConfidence (Js.obj [("a".toList, Js.num 1)])) :=
  (C1_theorem [("a".toList, Js.num 1)] "Sure: ".toList " ok.".toList
    (by decide) (by decide) (by decide) (by decide) (by decide) (by decide)).2.2

/-- The stubbed LLM reply of the C4 scenario. -/
def c4Input : Str :=
  ("Sure! ```json\n\x7b\"personal\":\x7b\"fullName\":\"A B\",\"email\":\"a@b.com\"\x7d\x7d\n```").toList

/-- The object the C4 reply carries. -/
def c4Data : Js :=
  Js.obj [("personal".toList, Js.obj
    [("fullName".toList, Js.str "A B".toList),
     ("email".toList, Js.str "a@b.com".toList)])]

theorem c4_eval :
    parseAIResponse c4Input = .success c4Data (calculateConfidence c4Data) := rfl

theorem c4_conf : calculateConfidence c4Data = 4 / 5 := by
  have h80 : (⌊(161 : ℚ) / 2⌋ : ℤ) = 80 := by
    rw [Int.floor_eq_iff]
    constructor <;> norm_num
  have h1 : ((20 : ℚ) + 20) / 50 * 100 + 1 / 2 = 161 / 2 := by norm_num
  simp only [calculateConfidence, c4Data, getD, lookupKey, jsTruthy]
  simp +decide
  rw [jsRound, h1, h80]
  norm_num

/-- C4 counterexample: on the exact reply
"Sure! \x60\x60\x60json\n\x7b"personal":\x7b"fullName":"A B","email":"a@b.com"\x7d\x7d\n\x60\x60\x60"
the response parser succeeds, but the confidence computed for the parsed
data is 0.80, not the claimed 0.40: the score formula gives
round(40/50*100)/100 = 80/100. -/
theorem C4_counterexample :
    AIResp.confOf (parseAIResponse c4Input) = some (4 / 5) ∧
    ((4 : ℚ) / 5 ≠ 2 / 5) := by
  refine ⟨?_, by norm_num⟩
  rw [c4_eval]
  show some (calculateConfidence c4Data) = some (4 / 5)
  rw [c4_conf]

/-- C4 (amended): when the LLM reply is exactly the string
"Sure! \x60\x60\x60json\n\x7b"personal":\x7b"fullName":"A B","email":"a@b.com"\x7d\x7d\n\x60\x60\x60",
the response parser succeeds, the parsed result's personal.email equals
"a@b.com", and the confidence computed for the parsed data equals
round((20+20)/50*100)/100 = 0.80 (not 0.40: the spec's arithmetic slip). -/
theorem C4_theorem :
    parseAIResponse c4Input = .success c4Data (4 / 5) ∧
    getD (getD c4Data "personal".toList) "email".toList
      = Js.str "a@b.com".toList := by
  refine ⟨?_, by decide⟩
  rw [c4_eval, c4_conf]

/-! ### Text compressor (smartCompressText, src/unnamed/part_001 lines 687-707) -/

/-- Host model: one attempt of the regex /Page \d+ of \d+/ at the head of
`s`; on a match, returns the remainder after the (greedy) match. -/
def tryPageNum : Str → Option Str
  | 'P' :: 'a' :: 'g' :: 'e' :: ' ' :: rest =>
    let ds := rest.takeWhile Char.isDigit
    if ds.isEmpty then none else
      match rest.drop ds.length with
      | ' ' :: 'o' :: 'f' :: ' ' :: r2 =>
        let ds2 := r2.takeWhile Char.isDigit
        if ds2.isEmpty then none else some (r2.drop ds2.length)
      | _ => none
  | _ => none

/-- Host model: `text.replace(/Page \d+ of \d+/g, '')` — left-to-right
non-overlapping global replacement by the empty string (fuel-indexed,
each step consumes at least one character). -/
def replacePageNumsAux : Nat → Str → Str
  | 0, s => s
  | _ + 1, [] => []
  | f + 1, c :: rest =>
    match tryPageNum (c :: rest) with
    | some r => replacePageNumsAux f r
    | none => c :: replacePageNumsAux f rest

def replacePageNums (s : Str) : Str := replacePageNumsAux s.length s

/-- Case-insensitive literal-prefix match: if `s` starts with the (lower
case) pattern `p` up to `Char.toLower`, return the remainder. -/
def tryLitCI : Str → Str → Option Str
  | [], s => some s
  | _ :: _, [] => none
  | p :: ps, c :: cs => if c.toLower = p then tryLitCI ps cs else none

/-- Host model: `text.replace(/References available upon request/gi, '')`. -/
def replaceRaurAux : Nat → Str → Str
  | 0, s => s
  | _ + 1, [] => []
  | f + 1, c :: rest =>
    match tryLitCI "references available upon request".toList (c :: rest) with
    | some r => replaceRaurAux f r
    | none => c :: replaceRaurAux f rest

def replaceRaur (s : Str) : Str := replaceRaurAux s.length s

/-- Host model: `text.replace(/\s{2,}/g, ' ')` — every maximal run of two
or more whitespace characters becomes a single space; an isolated
whitespace character is untouched. -/
def collapseWsAux : Nat → Str → Str
  | 0, s => s
  | _ + 1, [] => []
  | f + 1, c :: rest =>
    if jsWs c then
      match rest with
      | c2 :: _ =>
        if jsWs c2 then ' ' :: collapseWsAux f (rest.dropWhile jsWs)
        else c :: collapseWsAux f rest
      | [] => [c]
    else c :: collapseWsAux f rest

def collapseWs (s : Str) : Str := collapseWsAux s.length s

/-- Lines 689: the cleaning pipeline of `smartCompressText` —
page-number footers out, boilerplate out, whitespace runs collapsed,
then trimmed. -/
def cleanText (text : Str) : Str :=
  jsTrim (collapseWs (replaceRaur (replacePageNums text)))

/-- `smartCompressText(text, level)`, src/unnamed/part_001 lines 687-707:
clean, then truncate per level (`String.prototype.substring(0, n)`). -/
def smartCompressText (text level : Str) : Str :=
  let cleaned := cleanText text
  if level = "low".toList then cleaned.take 2000
  else if level = "moderate".toList then cleaned.take 3500
  else if level = "high".toList then cleaned.take 5000
  else if level = "ultra".toList then cleaned
  else cleaned.take 3500

/-- C3: the compressor cleans first and then hard-truncates per level:
length at most 2000 for low, 3500 for moderate, 5000 for high, 3500 for
any unrecognized level; for ultra the output is exactly the cleaned
input — nothing is truncated. -/
theorem C3_theorem (text : Str) :
    (smartCompressText text "low".toList).length ≤ 2000 ∧
    (smartCompressText text "moderate".toList).length ≤ 3500 ∧
    (smartCompressText text "high".toList).length ≤ 5000 ∧
    smartCompressText text "ultra".toList = cleanText text ∧
    ∀ level : Str,
      level ∉ ["low".toList, "moderate".toList, "high".toList,
               "ultra".toList] →
      (smartCompressText text level).length ≤ 3500 := by
  refine ⟨?_, ?_, ?_, ?_, ?_⟩ <;>
    simp only [smartCompressText]
  · simp [List.length_take]
  · simp [List.length_take]
  · simp [List.length_take]
  · simp
  · intro level h
    simp only [List.mem_cons, List.mem_singleton, not_or] at h
    rw [if_neg h.1, if_neg h.2.1, if_neg h.2.2.1, if_neg h.2.2.2.1]
    simp [List.length_take]

/-- C3 witness: a concrete text containing a page footer and boilerplate,
compressed at an unrecognized level, stays within the moderate bound. -/
theorem C3_theorem_witness :
    (smartCompressText
      "Page 1 of 2  Alice  References Available Upon Request".toList
      "weird".toList).length ≤ 3500 :=
  (C3_theorem _).2.2.2.2 "weird".toList (by decide)

/-! ### Model fallback loop (parseWithFallback, src/quick-application-service.js
lines 166-212). The per-model parse call is abstracted as an oracle
`attempt : Str → Except Str α` returning either a result or the thrown
error's message; the `setTimeout(..., 1000)` delay is modelled by
accumulating waited milliseconds. -/

/-- Lines 194-200: an error skips straight to the next model when its
message includes "404", "not found" or "access". -/
def isSkipError (msg : Str) : Bool :=
  containsSub msg "404".toList || containsSub msg "not found".toList ||
    containsSub msg "access".toList

def errMsgOf : Except Str α → Str
  | .error m => m
  | .ok _ => []

/-- The `for (const model of modelsToTry)` loop, carrying `lastError`'s
message and the total delay waited so far; on exhaustion, the aggregate
error of lines 208-210 with the `|| "Unknown error"` fallback for a
missing or empty message. -/
def parseWithFallbackAux (attempt : Str → Except Str α) :
    List Str → Str → Nat → Except Str (α × Str × Nat)
  | [], lastMsg, _ =>
      .error ("All Gemini models failed. Last error: ".toList ++
        (if lastMsg = [] then "Unknown error".toList else lastMsg))
  | m :: ms, _, d =>
      match attempt m with
      | .ok r => .ok (r, m, d)
      | .error msg =>
          if isSkipError msg then parseWithFallbackAux attempt ms msg d
          else parseWithFallbackAux attempt ms msg (d + 1000)

/-- `parseWithFallback`: try the candidate models in order; a success
returns the result, the model used and the delay accrued on the way. -/
def parseWithFallback (attempt : Str → Except Str α) (models : List Str) :
    Except Str (α × Str × Nat) :=
  parseWithFallbackAux attempt models [] 0

/-- A model failing with a message that does not match the skip patterns. -/
def delayErr (attempt : Str → Except Str α) (m : Str) : Bool :=
  match attempt m with
  | .error msg => !isSkipError msg
  | .ok _ => false

theorem pwfAux_ok (attempt : Str → Except Str α) :
    ∀ (models : List Str) (lm : Str) (d i : Nat) (hi : i < models.length)
      (r : α),
      (∀ j (hj : j < i),
        (attempt (models.get ⟨j, Nat.lt_trans hj hi⟩)).isOk = false) →
      attempt (models.get ⟨i, hi⟩) = .ok r →
      parseWithFallbackAux attempt models lm d =
        .ok (r, models.get ⟨i, hi⟩,
             d + 1000 * ((models.take i).countP (delayErr attempt))) := by
  intro models
  induction models with
  | nil => intro lm d i hi; exact absurd hi (by simp)
  | cons m ms ih =>
    intro lm d i hi r hfail hok
    match i with
    | 0 =>
      simp only [List.get] at hok ⊢
      simp [parseWithFallbackAux, hok]
    | Nat.succ j =>
      have h0 := hfail 0 (Nat.succ_pos j)
      simp only [List.get] at h0
      match hm : attempt m with
      | .ok r0 => rw [hm] at h0; simp [Except.isOk, Except.toBool] at h0
      | .error msg =>
        have hj : j < ms.length := Nat.lt_of_succ_lt_succ hi
        have hfail' : ∀ k (hk : k < j),
            (attempt (ms.get ⟨k, Nat.lt_trans hk hj⟩)).isOk = false := by
          intro k hk
          have := hfail (k + 1) (Nat.succ_lt_succ hk)
          simpa using this
        have hok' : attempt (ms.get ⟨j, hj⟩) = .ok r := by
          simpa using hok
        have hde : delayErr attempt m = !isSkipError msg := by
          simp [delayErr, hm]
        simp only [parseWithFallbackAux, hm]
        by_cases hskip : isSkipError msg = true
        · rw [if_pos hskip, ih msg d j hj r hfail' hok']
          simp [List.countP_cons, hde, hskip]
        · have hskip' : isSkipError msg = false := by
            rw [Bool.not_eq_true] at hskip
            exact hskip
          rw [if_neg hskip, ih msg (d + 1000) j hj r hfail' hok']
          simp only [List.take_succ_cons, List.countP_cons, hde, hskip',
            Bool.not_false, List.get_cons_succ]
          congr 2
          simp only [eq_self_iff_true, if_true]
          rw [Prod.ext_iff]
          exact ⟨rfl, by omega⟩

theorem pwfAux_fail (attempt : Str → Except Str α) :
    ∀ (models : List Str) (lm : Str) (d : Nat),
      (∀ m ∈ models, (attempt m).isOk = false) →
      parseWithFallbackAux attempt models lm d =
        .error ("All Gemini models failed. Last error: ".toList ++
          (let fin :=
            match models.getLast? with
            | some ml => errMsgOf (attempt ml)
            | none => lm
           if fin = [] then "Unknown error".toList else fin)) := by
  intro models
  induction models with
  | nil => intro lm d _; rfl
  | cons m ms ih =>
    intro lm d hall
    have h0 := hall m (List.mem_cons_self m ms)
    match hm : attempt m with
    | .ok r0 => rw [hm] at h0; simp [Except.isOk, Except.toBool] at h0
    | .error msg =>
      have hall' : ∀ x ∈ ms, (attempt x).isOk = false := fun x hx =>
        hall x (List.mem_cons_of_mem m hx)
      simp only [parseWithFallbackAux, hm]
      match ms with
      | [] =>
        simp [parseWithFallbackAux, errMsgOf, hm]
      | m2 :: ms2 =>
        obtain ⟨ml, hml⟩ := Option.isSome_iff_exists.mp
          (List.getLast?_isSome.mpr (List.cons_ne_nil m2 ms2))
        by_cases hskip : isSkipError msg = true
        · rw [if_pos hskip, ih msg d hall', List.getLast?_cons_cons, hml]
        · rw [if_neg hskip, ih msg (d + 1000) hall', List.getLast?_cons_cons,
            hml]

/-- C2: the fallback loop tries the candidate models in order and stops at
the first success, reporting that model as used; along the way each
failing candidate adds a 1000 ms delay exactly when its error message
does not match the "404"/"not found"/"access" skip patterns; if every
candidate fails, the aggregate error carries the last error's message
(or "Unknown error" when that message is empty). -/
theorem C2_theorem (α : Type) (attempt : Str → Except Str α) :
    (∀ (models : List Str) (i : Nat) (hi : i < models.length) (r : α),
      (∀ j (hj : j < i),
        (attempt (models.get ⟨j, Nat.lt_trans hj hi⟩)).isOk = false) →
      attempt (models.get ⟨i, hi⟩) = .ok r →
      parseWithFallback attempt models =
        .ok (r, models.get ⟨i, hi⟩,
             1000 * ((models.take i).countP (delayErr attempt)))) ∧
    (∀ (models : List Str) (ml : Str),
      models.getLast? = some ml →
      (∀ m ∈ models, (attempt m).isOk = false) →
      parseWithFallback attempt models =
        .error ("All Gemini models failed. Last error: ".toList ++
          (if errMsgOf (attempt ml) = [] then "Unknown error".toList
           else errMsgOf (attempt ml)))) := by
  constructor
  · intro models i hi r hfail hok
    have h := pwfAux_ok attempt models [] 0 i hi r hfail hok
    simpa [parseWithFallback] using h
  · intro models ml hml hall
    have h := pwfAux_fail attempt models [] 0 hall
    unfold parseWithFallback
    rw [h, hml]

/-- The spec scenario for the fallback loop: the first model throws a
"model not found" error, the second succeeds. -/
def c2att : Str → Except Str Nat := fun m =>
  if m = "gemini-pro".toList then .error "model not found".toList
  else if m = "gemini-flash".toList then .ok 7
  else .error "boom".toList

def c2models : List Str :=
  ["gemini-pro".toList, "gemini-flash".toList, "gemini-lite".toList]

/-- C2 witness: with the first candidate failing on a "not found" message
and the second succeeding, the loop reports the second model used with
zero accumulated delay. -/
theorem C2_theorem_witness :
    parseWithFallback c2att c2models = .ok (7, "gemini-flash".toList, 0) := by
  have h := (C2_theorem Nat c2att).1 c2models 1 (by decide) 7 (by decide)
    rfl
  rw [h]
  rfl

/-! ### Confidence monotonicity (C8) -/

/-- JS property assignment on an object literal: replace the binding of
`k` (first occurrence), or append it when absent. -/
def setKey : List (Str × Js) → Str → Js → List (Str × Js)
  | [], k, v => [(k, v)]
  | (k0, v0) :: t, k, v =>
      if k0 = k then (k0, v) :: t else (k0, v0) :: setKey t k v

theorem lookupKey_setKey_self (kvs : List (Str × Js)) (k : Str) (v : Js) :
    lookupKey (setKey kvs k v) k = some v := by
  induction kvs with
  | nil => simp [setKey, lookupKey]
  | cons p t ih =>
    obtain ⟨k0, v0⟩ := p
    by_cases h : k0 = k
    · simp [setKey, lookupKey, h]
    · simp [setKey, lookupKey, h, ih]

theorem lookupKey_setKey_other (kvs : List (Str × Js)) (k k' : Str) (v : Js)
    (h : k' ≠ k) :
    lookupKey (setKey kvs k v) k' = lookupKey kvs k' := by
  induction kvs with
  | nil => simp [setKey, lookupKey, Ne.symm h]
  | cons p t ih =>
    obtain ⟨k0, v0⟩ := p
    by_cases h0 : k0 = k
    · subst h0
      simp [setKey, lookupKey, Ne.symm h]
    · simp [setKey, lookupKey, h0, ih]

theorem confFinal_mono (a b m : ℚ) (hm : 0 < m) (hab : a ≤ b) :
    (jsRound (a / m * 100) : ℚ) / 100 ≤ (jsRound (b / m * 100) : ℚ) / 100 := by
  have h1 : a / m ≤ b / m := by
    rw [div_eq_mul_inv, div_eq_mul_inv]
    exact mul_le_mul_of_nonneg_right hab (inv_nonneg.mpr (le_of_lt hm))
  have h2 : jsRound (a / m * 100) ≤ jsRound (b / m * 100) :=
    Int.floor_mono (by linarith)
  have h3 : (jsRound (a / m * 100) : ℚ) ≤ (jsRound (b / m * 100) : ℚ) := by
    exact_mod_cast h2
  linarith

theorem conf_body_mono (a b m : ℚ) (hab : a ≤ b) :
    (if 0 < m then (jsRound (a / m * 100) : ℚ) / 100 else 0) ≤
    (if 0 < m then (jsRound (b / m * 100) : ℚ) / 100 else 0) := by
  by_cases hm : 0 < m
  · rw [if_pos hm, if_pos hm]
    exact confFinal_mono a b m hm hab
  · rw [if_neg hm, if_neg hm]

/-- C8: the confidence score is monotone in the required personal
subfields — when the payload's `personal` object is present, setting a
previously-falsy `fullName`, `email` or `phone` to a truthy value never
decreases `calculateConfidence` — and the empty payload scores exactly 0. -/
theorem C8_theorem :
    (∀ (kvs pkvs : List (Str × Js)) (field : Str) (v : Js),
      lookupKey kvs "personal".toList = some (Js.obj pkvs) →
      (field = "fullName".toList ∨ field = "email".toList ∨
        field = "phone".toList) →
      jsTruthy (getD (Js.obj pkvs) field) = false →
      jsTruthy v = true →
      calculateConfidence (Js.obj kvs) ≤
        calculateConfidence (Js.obj (setKey kvs "personal".toList
          (Js.obj (setKey pkvs field v))))) ∧
    calculateConfidence (Js.obj []) = 0 := by
  constructor
  · intro kvs pkvs field v hp hfield hold hv
    have rs : lookupKey (setKey kvs "personal".toList
        (Js.obj (setKey pkvs field v))) "personal".toList
        = some (Js.obj (setKey pkvs field v)) := lookupKey_setKey_self _ _ _
    have r1 : lookupKey (setKey kvs "personal".toList
        (Js.obj (setKey pkvs field v))) "experience".toList
        = lookupKey kvs "experience".toList :=
      lookupKey_setKey_other _ _ _ _ (by decide)
    have r2 : lookupKey (setKey kvs "personal".toList
        (Js.obj (setKey pkvs field v))) "education".toList
        = lookupKey kvs "education".toList :=
      lookupKey_setKey_other _ _ _ _ (by decide)
    have r3 : lookupKey (setKey kvs "personal".toList
        (Js.obj (setKey pkvs field v))) "skills".toList
        = lookupKey kvs "skills".toList :=
      lookupKey_setKey_other _ _ _ _ (by decide)
    simp only [getD] at hold
    have tobj : jsTruthy (Js.obj pkvs) = true := rfl
    have tobj' : jsTruthy (Js.obj (setKey pkvs field v)) = true := rfl
    rcases hfield with rfl | rfl | rfl
    · have ss : lookupKey (setKey pkvs "fullName".toList v) "fullName".toList
          = some v := lookupKey_setKey_self _ _ _
      have s1 : lookupKey (setKey pkvs "fullName".toList v) "email".toList
          = lookupKey pkvs "email".toList :=
        lookupKey_setKey_other _ _ _ _ (by decide)
      have s2 : lookupKey (setKey pkvs "fullName".toList v) "phone".toList
          = lookupKey pkvs "phone".toList :=
        lookupKey_setKey_other _ _ _ _ (by decide)
      simp only [calculateConfidence, getD, hp, rs, r1, r2, r3, ss, s1, s2,
        Option.getD_some, tobj, tobj', hv, hold, eq_self_iff_true, if_true,
        Bool.false_eq_true, if_false]
      apply conf_body_mono
      linarith [le_refl (0 : ℚ)]
    · have ss : lookupKey (setKey pkvs "email".toList v) "email".toList
          = some v := lookupKey_setKey_self _ _ _
      have s1 : lookupKey (setKey pkvs "email".toList v) "fullName".toList
          = lookupKey pkvs "fullName".toList :=
        lookupKey_setKey_other _ _ _ _ (by decide)
      have s2 : lookupKey (setKey pkvs "email".toList v) "phone".toList
          = lookupKey pkvs "phone".toList :=
        lookupKey_setKey_other _ _ _ _ (by decide)
      simp only [calculateConfidence, getD, hp, rs, r1, r2, r3, ss, s1, s2,
        Option.getD_some, tobj, tobj', hv, hold, eq_self_iff_true, if_true,
        Bool.false_eq_true, if_false]
      apply conf_body_mono
      linarith [le_refl (0 : ℚ)]
    · have ss : lookupKey (setKey pkvs "phone".toList v) "phone".toList
          = some v := lookupKey_setKey_self _ _ _
      have s1 : lookupKey (setKey pkvs "phone".toList v) "fullName".toList
          = lookupKey pkvs "fullName".toList :=
        lookupKey_setKey_other _ _ _ _ (by decide)
      have s2 : lookupKey (setKey pkvs "phone".toList v) "email".toList
          = lookupKey pkvs "email".toList :=
        lookupKey_setKey_other _ _ _ _ (by decide)
      simp only [calculateConfidence, getD, hp, rs, r1, r2, r3, ss, s1, s2,
        Option.getD_some, tobj, tobj', hv, hold, eq_self_iff_true, if_true,
        Bool.false_eq_true, if_false]
      apply conf_body_mono
      linarith [le_refl (0 : ℚ)]
  · norm_num [calculateConfidence, getD, lookupKey, jsTruthy]

/-- C8 witness: adding email "a@b.com" to a payload whose personal object
has only a fullName raises the confidence (0.40 to 0.80 here), and in
particular does not decrease it. -/
theorem C8_theorem_witness :
    calculateConfidence (Js.obj [("personal".toList,
      Js.obj [("fullName".toList, Js.str "A B".toList)])]) ≤
    calculateConfidence (Js.obj (setKey
      [("personal".toList, Js.obj [("fullName".toList, Js.str "A B".toList)])]
      "personal".toList
      (Js.obj (setKey [("fullName".toList, Js.str "A B".toList)]
        "email".toList (Js.str "a@b.com".toList))))) :=
  C8_theorem.1 _ _ "email".toList (Js.str "a@b.com".toList) rfl
    (Or.inr (Or.inl rfl)) rfl rfl

/-! ### Batch processing (parseBatch, src/lib/index.js lines 154-207).
The per-file parse calls are abstracted as oracles (`parseO` for string
paths, `parseBufO` for buffer+type objects), each returning a result or
the thrown error's message. -/

/-- Host model: JS property access `v[k]` where the receiver may be
`null`/`undefined` (then a TypeError is thrown, modelled as `none`);
non-object receivers other than those yield `undefined` for the keys used
here (`name`, `buffer`, `type`). -/
def jsGetSafe : Js → Str → Option Js
  | .null, _ => none
  | .undef, _ => none
  | .obj kvs, k => some ((lookupKey kvs k).getD .undef)
  | _, _ => some Js.undef

/-- The try-block dispatch of one batch iteration (lines 167-175):
strings go to `parse`, objects with truthy `buffer` and `type` to
`parseBuffer`, anything else throws `Invalid file format in batch`. -/
def processFile (parseO : Str → Except Str Js)
    (parseBufO : Js → Js → Except Str Js) (file : Js) : Except Str Js :=
  match file with
  | .str p => parseO p
  | _ =>
      if jsTruthy (getD file "buffer".toList) &&
         jsTruthy (getD file "type".toList) then
        parseBufO (getD file "buffer".toList) (getD file "type".toList)
      else .error "Invalid file format in batch".toList

/-- One entry of the `results` array: `success`, `data`/`error`, the
display `file` value and the item's `index`. -/
inductive BEntry where
  | ok (data : Js) (file : Js) (index : Nat)
  | fail (error : Str) (file : Js) (index : Nat)
deriving DecidableEq, Repr

def BEntry.isOk : BEntry → Bool
  | .ok _ _ _ => true
  | .fail _ _ _ => false

/-- Line 164: `const fileName = file.name || file || file-(i+1)` (the
`name` access does not throw here: the receiver is not null/undefined). -/
def batchFileName (file : Js) (i : Nat) : Js :=
  let nm := (jsGetSafe file "name".toList).getD .undef
  if jsTruthy nm then nm
  else if jsTruthy file then file
  else Js.str ("file-".toList ++ intDigits (i + 1))

/-- The record pushed for one file: the whole iteration body, success and
failure branches included. -/
def entryOf (parseO : Str → Except Str Js)
    (parseBufO : Js → Js → Except Str Js) (file : Js) (i : Nat) : BEntry :=
  match processFile parseO parseBufO file with
  | .ok d => .ok d (batchFileName file i) i
  | .error m => .fail m (batchFileName file i) i

/-- The `for (let i = 0; ...)` loop carrying the running index, results
and both counters.  `none` models the loop body throwing outside the
try/catch: `file.name` on a null/undefined item raises a TypeError that
rejects the whole batch. -/
def parseBatchAux (parseO : Str → Except Str Js)
    (parseBufO : Js → Js → Except Str Js) :
    List Js → Nat → Option (List BEntry × Nat × Nat)
  | [], _ => some ([], 0, 0)
  | file :: rest, i =>
      match jsGetSafe file "name".toList with
      | none => none
      | some _ =>
          match parseBatchAux parseO parseBufO rest (i + 1) with
          | none => none
          | some (es, s, f) =>
              match processFile parseO parseBufO file with
              | .ok d => some (.ok d (batchFileName file i) i :: es, s + 1, f)
              | .error m =>
                  some (.fail m (batchFileName file i) i :: es, s, f + 1)

/-- The returned record of `parseBatch`: the `results` array and the
`summary`.  `successRate` is `Math.round(successCount/files.length*100)`;
on an empty batch this is `NaN`, modelled as `none`. -/
structure BatchOut where
  results : List BEntry
  total : Nat
  successful : Nat
  failed : Nat
  successRate : Option ℤ
deriving DecidableEq, Repr

def parseBatch (parseO : Str → Except Str Js)
    (parseBufO : Js → Js → Except Str Js) (files : List Js) :
    Option BatchOut :=
  match parseBatchAux parseO parseBufO files 0 with
  | none => none
  | some (es, s, f) =>
      some ⟨es, files.length, s, f,
        if files.length = 0 then none
        else some (jsRound ((s : ℚ) / (files.length : ℚ) * 100))⟩

theorem parseBatchAux_spec (parseO : Str → Except Str Js)
    (parseBufO : Js → Js → Except Str Js) :
    ∀ (files : List Js) (i : Nat),
      (∀ file ∈ files, file ≠ Js.null ∧ file ≠ Js.undef) →
      parseBatchAux parseO parseBufO files i =
        some ((files.enumFrom i).map
                (fun p => entryOf parseO parseBufO p.2 p.1),
              ((files.enumFrom i).map
                (fun p => entryOf parseO parseBufO p.2 p.1)).countP
                BEntry.isOk,
              ((files.enumFrom i).map
                (fun p => entryOf parseO parseBufO p.2 p.1)).countP
                (fun e => !BEntry.isOk e)) := by
  intro files
  induction files with
  | nil => intro i _; rfl
  | cons file rest ih =>
    intro i hok
    have h1 := hok file (List.mem_cons_self file rest)
    have hname : ∃ nm, jsGetSafe file "name".toList = some nm := by
      match file, h1 with
      | Js.bool b, _ => exact ⟨_, rfl⟩
      | Js.num n, _ => exact ⟨_, rfl⟩
      | Js.str s, _ => exact ⟨_, rfl⟩
      | Js.arr xs, _ => exact ⟨_, rfl⟩
      | Js.obj kvs, _ => exact ⟨_, rfl⟩
    obtain ⟨nm, hnm⟩ := hname
    have hrest : ∀ f ∈ rest, f ≠ Js.null ∧ f ≠ Js.undef := fun f hf =>
      hok f (List.mem_cons_of_mem file hf)
    rw [parseBatchAux, hnm, ih (i + 1) hrest]
    simp only [List.enumFrom, List.map, List.countP_cons, entryOf]
    match hpf : processFile parseO parseBufO file with
    | .ok d =>
      simp [BEntry.isOk, hpf]
    | .error m =>
      simp [BEntry.isOk, hpf]

/-- C9: `parseBatch` processes its files sequentially and independently —
the returned `results` hold exactly one success-or-failure entry per
input item, each determined by that item alone (a failing item yields a
`fail` entry and never aborts the remaining ones) — and the summary
satisfies `total = files.length`, `successful + failed = total`, with
`successRate` the rounded percentage of successful over total. -/
theorem countP_not_add {α : Type} (p : α → Bool) (l : List α) :
    l.countP p + l.countP (fun e => !p e) = l.length := by
  induction l with
  | nil => rfl
  | cons a t ih =>
    simp only [List.countP_cons, List.length_cons]
    cases h : p a <;> simp [h] <;> omega

theorem C9_theorem (parseO : Str → Except Str Js)
    (parseBufO : Js → Js → Except Str Js) (files : List Js)
    (hfiles : ∀ file ∈ files, file ≠ Js.null ∧ file ≠ Js.undef) :
    parseBatch parseO parseBufO files =
      some ⟨files.enum.map (fun p => entryOf parseO parseBufO p.2 p.1),
            files.length,
            (files.enum.map
              (fun p => entryOf parseO parseBufO p.2 p.1)).countP BEntry.isOk,
            (files.enum.map
              (fun p => entryOf parseO parseBufO p.2 p.1)).countP
              (fun e => !BEntry.isOk e),
            if files.length = 0 then none
            else some (jsRound
              ((((files.enum.map
                   (fun p => entryOf parseO parseBufO p.2 p.1)).countP
                   BEntry.isOk : ℕ) : ℚ) / (files.length : ℚ) * 100))⟩ ∧
    (files.enum.map (fun p => entryOf parseO parseBufO p.2 p.1)).length
      = files.length ∧
    (files.enum.map (fun p => entryOf parseO parseBufO p.2 p.1)).countP
        BEntry.isOk
      + (files.enum.map (fun p => entryOf parseO parseBufO p.2 p.1)).countP
          (fun e => !BEntry.isOk e)
      = files.length := by
  refine ⟨?_, ?_, ?_⟩
  · unfold parseBatch
    rw [parseBatchAux_spec parseO parseBufO files 0 hfiles]
    rfl
  · simp
  · rw [countP_not_add]
    simp

/-- C9 witness: a two-file batch — a path that parses successfully and an
object with no buffer/type — yields one success entry and one failure
entry, summary 2/1/1 and a 50% success rate. -/
theorem C9_theorem_witness :
    parseBatch (fun _ => Except.ok (Js.num 1)) (fun _ _ => Except.error [])
      [Js.str "a.pdf".toList, Js.obj []] =
      some ⟨[BEntry.ok (Js.num 1) (Js.str "a.pdf".toList) 0,
             BEntry.fail "Invalid file format in batch".toList (Js.obj []) 1],
            2, 1, 1, some 50⟩ := by
  have h50 : (⌊(1 : ℚ) / 2 * 100 + 1 / 2⌋ : ℤ) = 50 := by
    rw [Int.floor_eq_iff]
    constructor <;> norm_num
  have h := (C9_theorem (fun _ => Except.ok (Js.num 1))
    (fun _ _ => Except.error []) [Js.str "a.pdf".toList, Js.obj []]
    (by decide)).1
  rw [h]
  have hmap : (List.enum [Js.str "a.pdf".toList, Js.obj []]).map
      (fun p => entryOf (fun _ => Except.ok (Js.num 1))
        (fun _ _ => Except.error []) p.2 p.1)
      = [BEntry.ok (Js.num 1) (Js.str "a.pdf".toList) 0,
         BEntry.fail "Invalid file format in batch".toList (Js.obj []) 1] := by
    rfl
  rw [hmap]
  norm_num [List.countP, List.countP.go, BEntry.isOk, jsRound, h50]

/-! ### Data validator (src/src/validators/dataValidator.js and
src/src/schemas/fieldTypes.js).

Mutation of the shared `errors`/`warnings` arrays is modelled by
returning the pushed deltas; a JS exception is an `Except.error` carrying
the thrown message, paired with the deltas that were pushed before the
throw (those array mutations persist through the throw). -/

/-- `value === undefined || value === null || value === ''`
(dataValidator.js line 43). -/
def isMissing : Js → Bool
  | .undef => true
  | .null => true
  | .str [] => true
  | _ => false

def isNullish : Js → Bool
  | .undef => true
  | .null => true
  | _ => false

/-- JS property read `data[key]` as used by the validator traversal: a
TypeError on null/undefined receivers; on object receivers the property
value; on the remaining primitives `undefined` (the schema keys appearing
in this development are neither numeric indices nor `length`). -/
def jsGetE : Js → Str → Except Str Js
  | .null, k =>
      .error ("Cannot read properties of null (reading '".toList ++ k ++
        "')".toList)
  | .undef, k =>
      .error ("Cannot read properties of undefined (reading '".toList ++ k ++
        "')".toList)
  | .obj kvs, k => .ok ((lookupKey kvs k).getD .undef)
  | _, _ => .ok Js.undef

/-- Host model: `String.prototype.toLowerCase` (ASCII). -/
def toLowerStr (s : Str) : Str := s.map Char.toLower

mutual

/-- Host model: JS `String(value)` / `value.toString()`. -/
def jsToString : Js → Str
  | .undef => "undefined".toList
  | .null => "null".toList
  | .bool b => if b then "true".toList else "false".toList
  | .num n => intDigits n
  | .str s => s
  | .arr xs => jsToStringElems xs
  | .obj _ => "[object Object]".toList

/-- `Array.prototype.toString` = `join(',')`; null/undefined elements
render as the empty string. -/
def jsToStringElems : List Js → Str
  | [] => []
  | [x] => (match x with | .undef => [] | .null => [] | _ => jsToString x)
  | x :: xs =>
      (match x with | .undef => [] | .null => [] | _ => jsToString x) ++
        ',' :: jsToStringElems xs

end

/-- The email regex of fieldTypes.js line 32 and its `.test` coercion:
one or more characters that are neither whitespace nor `@`, an `@`, a
segment containing a dot with at least one character on each side, no
whitespace anywhere. -/
def emailOk (s : Str) : Bool :=
  let a := s.takeWhile (fun c => c ≠ '@')
  match s.drop a.length with
  | '@' :: b =>
      decide (a ≠ []) && !(a.any jsWs) &&
        !(b.any (fun c => jsWs c || c = '@')) &&
        ((b.drop 1).dropLast.any (fun c => c = '.'))
  | _ => false

/-- `value.replace(/[\s\-\(\)]/g, '')` of the phone config. -/
def stripPhone (s : Str) : Str :=
  s.filter (fun c => !(jsWs c || c = '-' || c = '(' || c = ')'))

/-- The phone regex `/^[\+]?[1-9][\d]{0,15}$/` applied after stripping. -/
def phoneCore : Str → Bool
  | [] => false
  | c :: rest =>
      ('1' ≤ c && c ≤ '9') && decide (rest.length ≤ 15) &&
        rest.all Char.isDigit

def phoneOk (s : Str) : Bool :=
  match stripPhone s with
  | '+' :: rest => phoneCore rest
  | rest => phoneCore rest

/-- Host model: `new URL(value)` succeeds — a leading ASCII letter
followed by scheme characters up to a colon (host-specific validation of
special schemes is outside the modelled subset). -/
def hasSchemeColon : Str → Bool
  | [] => false
  | c :: rest =>
      if c = ':' then true
      else (c.isAlphanum || c = '+' || c = '-' || c = '.') &&
        hasSchemeColon rest

def urlOk (s : Str) : Bool :=
  match s with
  | c :: rest => c.isAlpha && hasSchemeColon rest
  | [] => false

def isLeapYear (y : Nat) : Bool :=
  (y % 4 = 0 && y % 100 ≠ 0) || y % 400 = 0

def daysInMonth (y m : Nat) : Nat :=
  if m = 2 then (if isLeapYear y then 29 else 28)
  else if m = 4 || m = 6 || m = 9 || m = 11 then 30
  else 31

/-- Host model of the date handling (`Date.parse`, `new Date(v)`,
`toISOString().split('T')[0]`), restricted to the ISO `YYYY-MM-DD`
subset of the formats the engine accepts: exactly those strings parse
(with real month/day range checks), and they round-trip through
`toISOString` unchanged; values outside the subset are unparseable. -/
def isoDateOk : Str → Bool
  | [y1, y2, y3, y4, '-', m1, m2, '-', d1, d2] =>
      [y1, y2, y3, y4, m1, m2, d1, d2].all Char.isDigit &&
        (let y := ((digitVal y1 * 10 + digitVal y2) * 10 + digitVal y3) * 10 +
          digitVal y4
         let m := digitVal m1 * 10 + digitVal m2
         let d := digitVal d1 * 10 + digitVal d2
         decide (1 ≤ m) && decide (m ≤ 12) && decide (1 ≤ d) &&
           decide (d ≤ daysInMonth y m))
  | _ => false

def dateParseOk : Js → Bool
  | .str s => isoDateOk s
  | _ => false

/-- The field types appearing in FIELD_CONFIGS plus `object` and a
catch-all for every other `config.type` string (those have no field
config: the value passes through unchanged). -/
inductive FType where
  | tstring | temail | tphone | turl | tdate | tarray | tobject | tother
deriving DecidableEq, Repr

/-- One schema entry: `\x7btype, required, fields\x7d` (`fields` for
array/object types). -/
inductive FieldSchema where
  | mk (ftype : FType) (required : Bool)
      (fields : Option (List (Str × FieldSchema)))
deriving Repr

def FieldSchema.ftype : FieldSchema → FType
  | .mk t _ _ => t

def FieldSchema.required : FieldSchema → Bool
  | .mk _ r _ => r

def FieldSchema.fields : FieldSchema → Option (List (Str × FieldSchema))
  | .mk _ _ f => f

/-- `Invalid format for $\x7bpath\x7d: $\x7bvalue\x7d`. -/
def fmtWarn (path : Str) (v : Js) : Str :=
  "Invalid format for ".toList ++ path ++ ": ".toList ++ jsToString v

/-- The leaf part of `_validateField` (lines 97-107): run the type's
validator — a failure pushes a warning; the phone validator itself
throws on non-string values (`value.replace` is not a function) — then
the normalizer: the date normalizer `new Date(value).toISOString()`
throws `Invalid time value` on unparseable values, after the warning was
already pushed. -/
def leafStep (t : FType) (path : Str) (v : Js) :
    Except Str Js × List Str × List Str :=
  match t with
  | .tstring =>
      let ok : Bool := match v with | .str _ => true | _ => false
      (.ok (.str (jsTrim (jsToString v))), [],
        if ok then [] else [fmtWarn path v])
  | .temail =>
      (.ok (.str (jsTrim (toLowerStr (jsToString v)))), [],
        if emailOk (jsToString v) then [] else [fmtWarn path v])
  | .tphone =>
      match v with
      | .str s =>
          (.ok (.str (stripPhone s)), [],
            if phoneOk s then [] else [fmtWarn path (.str s)])
      | _ => (.error "value.replace is not a function".toList, [], [])
  | .turl =>
      (.ok (.str (jsTrim (jsToString v))), [],
        if urlOk (jsToString v) then [] else [fmtWarn path v])
  | .tdate =>
      let w : List Str := if dateParseOk v then [] else [fmtWarn path v]
      (match v with
       | .str s => if isoDateOk s then .ok (.str s)
                   else .error "Invalid time value".toList
       | _ => .error "Invalid time value".toList, [], w)
  | _ => (.ok v, [], [])

/-- State of the `value.map` loop over array items (lines 73-81):
result-so-far or the propagating thrown message, pushed errors, pushed
warnings, next index. -/
abbrev ItemsAcc := Except Str (List Js) × List Str × List Str × Nat

/-- Lines 66-69: a non-array value is wrapped into a one-element array
with a conversion warning. -/
def wrapArr (path : Str) (v : Js) : Js × List Str :=
  match v with
  | .arr _ => (v, [])
  | _ => (.arr [v], ["Converting non-array to array for ".toList ++ path])

/-- The item list the `value.map` loop runs over. -/
def wrapItems : Js → List Js
  | .arr xs => xs
  | v => [v]

/-- `$\x7bpath\x7d[$\x7bindex\x7d]`. -/
def itemPath (path : Str) (i : Nat) : Str :=
  path ++ '[' :: natDigits i ++ "]".toList

/-- One step of the `value.map` item loop: once an item has thrown, the
remaining items are not processed; otherwise the item's object result is
appended and its error/warning deltas are pushed. -/
def vItemStep
    (f : Js → Str → Except Str (List (Str × Js)) × List Str × List Str)
    (path : Str) (acc : ItemsAcc) (item : Js) : ItemsAcc :=
  match acc with
  | (.error e, errs, warns, i) => (.error e, errs, warns, i)
  | (.ok done, errs, warns, i) =>
      match f item (itemPath path i) with
      | (.ok entries, eD, wD) =>
          (.ok (done ++ [Js.obj entries]), errs ++ eD, warns ++ wD, i + 1)
      | (.error m, eD, wD) => (.error m, errs ++ eD, warns ++ wD, i + 1)

def vItemsGo
    (f : Js → Str → Except Str (List (Str × Js)) × List Str × List Str)
    (path : Str) : List Js → ItemsAcc → ItemsAcc
  | [], acc => acc
  | item :: rest, acc => vItemsGo f path rest (vItemStep f path acc item)

mutual

/-- `_validateField` (lines 64-110).  Returns the validated value or the
thrown message, with the `errors`/`warnings` deltas pushed along the way
(a throw keeps the deltas of completed array items). -/
def vField : FieldSchema → Str → Js → Except Str Js × List Str × List Str
  | .mk t _ fieldsOpt, path, v =>
    if t = .tarray then
      match fieldsOpt with
      | some flds =>
          let st : ItemsAcc :=
            vItemsGo (fun it p => vFields it flds p) path (wrapItems v)
              (.ok [], [], [], 0)
          (match st.1 with
           | .ok objs => .ok (.arr objs)
           | .error m => .error m, st.2.1, (wrapArr path v).2 ++ st.2.2.1)
      | none => (.ok (wrapArr path v).1, [], (wrapArr path v).2)
    else if t = .tobject then
      match fieldsOpt with
      | some flds =>
          match vFields v flds path with
          | (.ok entries, eD, wD) => (.ok (.obj entries), eD, wD)
          | (.error m, eD, wD) => (.error m, eD, wD)
      | none => (.ok v, [], [])
    else leafStep t path v

/-- `_validateObject` (lines 38-59): iterate the schema's entries in
order; a required missing value pushes an error and skips the key; a
present value goes through `_validateField` inside a try/catch whose
handler pushes `Validation error for <path>: <message>`; an optional
missing value is set to an explicit null.  The property read `data[key]`
itself throws on null/undefined `data` (then nothing was pushed). -/
def vFields : Js → List (Str × FieldSchema) → Str →
    Except Str (List (Str × Js)) × List Str × List Str
  | _, [], _ => (.ok [], [], [])
  | data, (key, cfg) :: rest, path =>
      let currentPath := if path = [] then key
        else path ++ '.' :: key
      match jsGetE data key with
      | .error m => (.error m, [], [])
      | .ok value =>
          if cfg.required && isMissing value then
            match vFields data rest path with
            | (r, eR, wR) =>
                (r, ("Required field missing: ".toList ++ currentPath) :: eR,
                 wR)
          else if !isMissing value then
            match vField cfg currentPath value with
            | (.ok val, eD, wD) =>
                match vFields data rest path with
                | (.ok entries, eR, wR) =>
                    (.ok ((key, val) :: entries), eD ++ eR, wD ++ wR)
                | (.error m, eR, wR) => (.error m, eD ++ eR, wD ++ wR)
            | (.error m, eD, wD) =>
                match vFields data rest path with
                | (r, eR, wR) =>
                    (r, eD ++ ("Validation error for ".toList ++
                        currentPath ++ ": ".toList ++ m) :: eR,
                     wD ++ wR)
          else
            match vFields data rest path with
            | (.ok entries, eR, wR) =>
                (.ok ((key, Js.null) :: entries), eR, wR)
            | (.error m, eR, wR) => (.error m, eR, wR)

end

/-- The result record of `validate` (lines 11-33). -/
structure VResult where
  isValid : Bool
  data : Js
  errors : List Str
  warnings : List Str
deriving DecidableEq, Repr

/-- `DataValidator.validate` (lines 11-33): run the traversal; on normal
return, `isValid` is `errors.length === 0`; a thrown exception is caught
and converted to an invalid result with an empty data object, the single
error `Validation failed: <message>` and the warnings pushed so far. -/
def validate (schema : List (Str × FieldSchema)) (data : Js) : VResult :=
  match vFields data schema [] with
  | (.ok entries, errs, warns) =>
      ⟨decide (errs = []), .obj entries, errs, warns⟩
  | (.error m, _, warns) =>
      ⟨false, .obj [], ["Validation failed: ".toList ++ m], warns⟩

/-- C10: `validate` always returns normally (it is a total function of
the embedding): an exception thrown during traversal is caught and
converted to a result with `isValid = false`, an empty data object and
the single descriptive error `Validation failed: <message>` (keeping the
warnings pushed so far); and in every returned result, `isValid` is true
exactly when the errors list is empty. -/
theorem C10_theorem (schema : List (Str × FieldSchema)) (data : Js) :
    ((validate schema data).isValid = true ↔
      (validate schema data).errors = []) ∧
    (∀ m errs warns, vFields data schema [] = (.error m, errs, warns) →
      validate schema data =
        ⟨false, Js.obj [], ["Validation failed: ".toList ++ m], warns⟩) := by
  constructor
  · unfold validate
    rcases hv : vFields data schema [] with ⟨r, errs, warns⟩
    match r with
    | .ok entries => simp
    | .error m => simp
  · intro m errs warns h
    unfold validate
    rw [h]

/-- C10 witness: validating a null payload against a one-field schema
hits the TypeError of `data[key]`, which the catch converts into the
descriptive single-error invalid result. -/
theorem C10_theorem_witness :
    validate [("a".toList, .mk .tstring true none)] Js.null =
      ⟨false, Js.obj [],
       ["Validation failed: Cannot read properties of null (reading 'a')".toList],
       []⟩ :=
  (C10_theorem [("a".toList, .mk .tstring true none)] Js.null).2 _ _ _ rfl

/-- C7 counterexample: `date` is a leaf type of the registry, yet the
payload value "not-a-date" (which fails the date format validator)
produces an error — `Validation error for d: Invalid time value`, thrown
by the normalizer `new Date(value).toISOString()` — and the value is
excluded from the returned data tree, on top of the format warning. -/
theorem C7_counterexample :
    validate [("d".toList, .mk .tdate false none)]
      (Js.obj [("d".toList, Js.str "not-a-date".toList)]) =
      ⟨false, Js.obj [],
       ["Validation error for d: Invalid time value".toList],
       ["Invalid format for d: not-a-date".toList]⟩ ∧
    (validate [("d".toList, .mk .tdate false none)]
      (Js.obj [("d".toList, Js.str "not-a-date".toList)])).errors ≠ [] ∧
    getD (validate [("d".toList, .mk .tdate false none)]
      (Js.obj [("d".toList, Js.str "not-a-date".toList)])).data "d".toList
      = Js.undef := by
  exact ⟨rfl, by decide, rfl⟩

/-- C7 (amended): for the leaf types `string`, `email` and `url` with any
present value, and for `phone` with any present string value, a value
failing the type's format validator produces only a warning — the
normalized value still appears in the returned data and the result stays
valid; the `date` type breaks the original claim: any present string
value outside the parseable set yields a validation error and is
excluded from the output (the phone validator likewise throws on
non-string values). -/
theorem C7_theorem :
    (∀ (key : Str) (req : Bool) (v : Js), isMissing v = false →
      validate [(key, .mk .tstring req none)] (Js.obj [(key, v)]) =
        ⟨true, Js.obj [(key, .str (jsTrim (jsToString v)))], [],
         if (match v with | Js.str _ => true | _ => false) then []
         else [fmtWarn key v]⟩) ∧
    (∀ (key : Str) (req : Bool) (v : Js), isMissing v = false →
      validate [(key, .mk .temail req none)] (Js.obj [(key, v)]) =
        ⟨true, Js.obj [(key, .str (jsTrim (toLowerStr (jsToString v))))], [],
         if emailOk (jsToString v) then [] else [fmtWarn key v]⟩) ∧
    (∀ (key : Str) (req : Bool) (v : Js), isMissing v = false →
      validate [(key, .mk .turl req none)] (Js.obj [(key, v)]) =
        ⟨true, Js.obj [(key, .str (jsTrim (jsToString v)))], [],
         if urlOk (jsToString v) then [] else [fmtWarn key v]⟩) ∧
    (∀ (key : Str) (req : Bool) (s : Str), s ≠ [] →
      validate [(key, .mk .tphone req none)] (Js.obj [(key, .str s)]) =
        ⟨true, Js.obj [(key, .str (stripPhone s))], [],
         if phoneOk s then [] else [fmtWarn key (.str s)]⟩) ∧
    (∀ (key : Str) (req : Bool) (s : Str), isoDateOk s = false → s ≠ [] →
      validate [(key, .mk .tdate req none)] (Js.obj [(key, .str s)]) =
        ⟨false, Js.obj [],
         ["Validation error for ".toList ++ key ++
            ": Invalid time value".toList],
         [fmtWarn key (.str s)]⟩) := by
  refine ⟨?_, ?_, ?_, ?_, ?_⟩
  · intro key req v hm
    simp [validate, vFields, vField, leafStep, jsGetE, lookupKey, hm,
      FieldSchema.required, FieldSchema.ftype, dateParseOk]
  · intro key req v hm
    simp [validate, vFields, vField, leafStep, jsGetE, lookupKey, hm,
      FieldSchema.required, FieldSchema.ftype, dateParseOk]
  · intro key req v hm
    simp [validate, vFields, vField, leafStep, jsGetE, lookupKey, hm,
      FieldSchema.required, FieldSchema.ftype, dateParseOk]
  · intro key req s hs
    have hm : isMissing (Js.str s) = false := by
      match s, hs with
      | c :: t, _ => rfl
    simp [validate, vFields, vField, leafStep, jsGetE, lookupKey, hm,
      FieldSchema.required, FieldSchema.ftype, dateParseOk]
  · intro key req s hd hs
    have hm : isMissing (Js.str s) = false := by
      match s, hs with
      | c :: t, _ => rfl
    simp [validate, vFields, vField, leafStep, jsGetE, lookupKey, hm, hd,
      FieldSchema.required, FieldSchema.ftype, dateParseOk]

/-- C7 witness: a number in a string-typed field draws the format
warning but is normalized (`(5).toString()`), kept in the output, and
the result stays valid. -/
theorem C7_theorem_witness :
    validate [("s".toList, .mk .tstring false none)]
      (Js.obj [("s".toList, Js.num 5)]) =
      ⟨true, Js.obj [("s".toList, Js.str "5".toList)], [],
       ["Invalid format for s: 5".toList]⟩ := by
  have h := C7_theorem.1 "s".toList false (Js.num 5) rfl
  rw [h]
  rfl

/-- `Required field missing: $\x7bpath\x7d`. -/
def fmtReq (p : Str) : Str := "Required field missing: ".toList ++ p

mutual

/-- The claim's notion for one schema entry: the dotted (and indexed)
paths of required fields that are missing under a present value `v`
(non-arrays wrapped as in the traversal). -/
def missingReqF : FieldSchema → Str → Js → List Str
  | .mk t _ fieldsOpt, path, v =>
    if t = .tarray then
      match fieldsOpt with
      | some flds =>
          ((wrapItems v).enum.map
            (fun q => missingReqO flds (itemPath path q.1) q.2)).flatten
      | none => []
    else if t = .tobject then
      match fieldsOpt with
      | some flds => missingReqO flds path v
      | none => []
    else []

/-- The claim's notion: the dotted paths of the schema's required fields
missing (undefined, null or empty string) from the payload. -/
def missingReqO : List (Str × FieldSchema) → Str → Js → List Str
  | [], _, _ => []
  | (key, cfg) :: rest, path, data =>
      (let cur := if path = [] then key else path ++ '.' :: key
       let value := getD data key
       if cfg.required && isMissing value then [cur]
       else if !isMissing value then missingReqF cfg cur value
       else []) ++ missingReqO rest path data

end

mutual

/-- No step of the traversal of this field's present value throws (even
into a surrounding catch): array items are dereferenceable, phone fields
hold strings, date fields hold parseable strings. -/
def noThrowF : FieldSchema → Js → Bool
  | .mk t _ fieldsOpt, v =>
    if t = .tarray then
      match fieldsOpt with
      | some flds => (wrapItems v).all (fun it => noThrowO flds it)
      | none => true
    else if t = .tobject then
      match fieldsOpt with
      | some flds => noThrowO flds v
      | none => true
    else if t = .tphone then
      match v with | .str _ => true | _ => false
    else if t = .tdate then
      match v with | .str s => isoDateOk s | _ => false
    else true

/-- No step of the traversal of `data` against these fields throws. -/
def noThrowO : List (Str × FieldSchema) → Js → Bool
  | [], _ => true
  | (key, cfg) :: rest, data =>
      !isNullish data &&
        (isMissing (getD data key) || noThrowF cfg (getD data key)) &&
        noThrowO rest data

end

theorem jsGetE_of_not_nullish (data : Js) (key : Str)
    (h : isNullish data = false) :
    jsGetE data key = .ok (getD data key) := by
  match data, h with
  | .bool b, _ => rfl
  | .num n, _ => rfl
  | .str s, _ => rfl
  | .arr xs, _ => rfl
  | .obj kvs, _ => rfl

theorem vItemsGo_ok
    (f : Js → Str → Except Str (List (Str × Js)) × List Str × List Str)
    (g : Js → Str → List Str) (path : Str) :
    ∀ (items : List Js) (done : List Js) (errs warns : List Str) (i : Nat),
      (∀ item ∈ items, ∀ p, ∃ entries w,
        f item p = (.ok entries, g item p, w)) →
      ∃ objs warns2,
        vItemsGo f path items (.ok done, errs, warns, i) =
          (.ok objs,
           errs ++ ((items.enumFrom i).map
             (fun q => g q.2 (itemPath path q.1))).flatten,
           warns2, i + items.length) := by
  intro items
  induction items with
  | nil => intro done errs warns i _; exact ⟨done, warns, by simp [vItemsGo]⟩
  | cons item rest ih =>
    intro done errs warns i hall
    obtain ⟨entries, w, hf⟩ :=
      hall item (List.mem_cons_self item rest) (itemPath path i)
    obtain ⟨objs, warns2, hrec⟩ :=
      ih (done ++ [Js.obj entries]) (errs ++ g item (itemPath path i))
        (warns ++ w) (i + 1)
        (fun it hit p => hall it (List.mem_cons_of_mem item hit) p)
    refine ⟨objs, warns2, ?_⟩
    rw [vItemsGo, vItemStep, hf, hrec]
    simp only [List.enumFrom, List.map, List.flatten, Prod.mk.injEq,
      List.append_assoc, List.length_cons]
    refine ⟨trivial, trivial, trivial, by omega⟩

mutual

theorem vField_noThrow : ∀ (cfg : FieldSchema) (path : Str) (v : Js),
    isMissing v = false → noThrowF cfg v = true →
    ∃ val warns, vField cfg path v =
      (.ok val, (missingReqF cfg path v).map fmtReq, warns) := by
  intro cfg path v hm hnt
  obtain ⟨t, req, fieldsOpt⟩ := cfg
  cases t with
  | tarray =>
    cases fieldsOpt with
    | none =>
      exact ⟨(wrapArr path v).1, (wrapArr path v).2, by simp [vField, missingReqF]⟩
    | some flds =>
      simp only [noThrowF, reduceIte, List.all_eq_true] at hnt
      have hyp : ∀ item ∈ wrapItems v, ∀ p, ∃ entries w,
          (fun it q => vFields it flds q) item p =
            (.ok entries,
             (fun it q => (missingReqO flds q it).map fmtReq) item p, w) :=
        fun item hit p => vFields_noThrow flds item p (hnt item hit)
      obtain ⟨objs, warns2, hgo⟩ :=
        vItemsGo_ok (fun it q => vFields it flds q)
          (fun it q => (missingReqO flds q it).map fmtReq) path
          (wrapItems v) [] [] [] 0 hyp
      refine ⟨.arr objs, (wrapArr path v).2 ++ warns2, ?_⟩
      simp only [vField, reduceIte, hgo]
      simp only [missingReqF, reduceIte, List.map_flatten, List.map_map,
        List.enum, List.nil_append, Prod.mk.injEq]
      refine ⟨trivial, rfl, trivial⟩
  | tobject =>
    cases fieldsOpt with
    | none =>
      exact ⟨v, [], by simp [vField, missingReqF]⟩
    | some flds =>
      simp only [noThrowF, reduceIte] at hnt
      obtain ⟨entries, warns, h⟩ := vFields_noThrow flds v path hnt
      exact ⟨.obj entries, warns, by simp [vField, missingReqF, h]⟩
  | tstring =>
    exact ⟨_, _, rfl⟩
  | temail =>
    exact ⟨_, _, rfl⟩
  | turl =>
    exact ⟨_, _, rfl⟩
  | tphone =>
    simp only [noThrowF, reduceIte] at hnt
    match v, hnt with
    | .str s, _ =>
      exact ⟨_, _, rfl⟩
  | tdate =>
    simp only [noThrowF] at hnt
    simp at hnt
    match v, hnt with
    | .str s, hnt =>
      have hd : isoDateOk s = true := hnt
      refine ⟨.str s,
        if dateParseOk (.str s) then [] else [fmtWarn path (.str s)], ?_⟩
      simp [vField, leafStep, missingReqF, hd]
  | tother =>
    exact ⟨_, _, rfl⟩

theorem vFields_noThrow : ∀ (flds : List (Str × FieldSchema)) (data : Js)
    (path : Str), noThrowO flds data = true →
    ∃ entries warns, vFields data flds path =
      (.ok entries, (missingReqO flds path data).map fmtReq, warns) := by
  intro flds data path hnt
  match flds with
  | [] => exact ⟨[], [], rfl⟩
  | (key, cfg) :: rest =>
    simp only [noThrowO, Bool.and_eq_true, Bool.or_eq_true,
      Bool.not_eq_true'] at hnt
    obtain ⟨⟨hnn, hval⟩, hrest⟩ := hnt
    have hget := jsGetE_of_not_nullish data key hnn
    obtain ⟨entriesR, warnsR, hR⟩ := vFields_noThrow rest data path hrest
    by_cases hmiss : isMissing (getD data key) = true
    · by_cases hreq : cfg.required = true
      · refine ⟨entriesR, warnsR, ?_⟩
        simp only [vFields, hget, hreq, hmiss, Bool.and_self, reduceIte, hR,
          missingReqO]
        simp [fmtReq, hreq, hmiss]
      · have hreq' : cfg.required = false := by
          simpa using hreq
        refine ⟨(key, Js.null) :: entriesR, warnsR, ?_⟩
        simp only [vFields, hget, hreq', hmiss, Bool.false_and,
          Bool.not_true, reduceIte, hR, missingReqO]
        simp [hreq', hmiss]
    · have hnf : noThrowF cfg (getD data key) = true := by
        rcases hval with h | h
        · exact absurd h hmiss
        · exact h
      have hm' : isMissing (getD data key) = false := by
        simpa using hmiss
      obtain ⟨val, warnsF, hF⟩ :=
        vField_noThrow cfg
          (if path = [] then key else path ++ '.' :: key)
          (getD data key) hm' hnf
      refine ⟨(key, val) :: entriesR, warnsF ++ warnsR, ?_⟩
      simp only [vFields, hget, hm', Bool.and_false, reduceIte,
        Bool.not_false, hF, hR, missingReqO]
      simp [hm', List.map_append]

end

/-- C5 counterexample: schema `\x7bxs: optional array of \x7br: required
string\x7d\x7d`, payload `\x7bxs: [null]\x7d`.  Exactly one required
field is missing — dotted path `xs[0].r` — yet the single error entry is
the converted TypeError `Validation error for xs: Cannot read properties
of null (reading 'r')`, which does not name that path. -/
theorem C5_counterexample :
    missingReqO [("xs".toList, .mk .tarray false (some
        [("r".toList, .mk .tstring true none)]))] []
        (Js.obj [("xs".toList, Js.arr [Js.null])]) = ["xs[0].r".toList] ∧
    (validate [("xs".toList, .mk .tarray false (some
        [("r".toList, .mk .tstring true none)]))]
        (Js.obj [("xs".toList, Js.arr [Js.null])])).errors =
      [("Validation error for xs: " ++
        "Cannot read properties of null (reading 'r')").toList] ∧
    containsSub (("Validation error for xs: " ++
        "Cannot read properties of null (reading 'r')").toList)
      "xs[0].r".toList = false ∧
    (validate [("xs".toList, .mk .tarray false (some
        [("r".toList, .mk .tstring true none)]))]
        (Js.obj [("xs".toList, Js.arr [Js.null])])).isValid = false := by
  refine ⟨rfl, rfl, by decide, rfl⟩

/-- C5 (amended): when no traversal step throws (no null/undefined
containers, phone fields hold strings, date fields parseable strings)
and exactly one required field is missing, `validate` reports exactly
the one error `Required field missing: <dotted path>` and `isValid` is
false. -/
theorem C5_theorem (schema : List (Str × FieldSchema)) (data : Js) (p : Str)
    (hnt : noThrowO schema data = true)
    (hone : missingReqO schema [] data = [p]) :
    (validate schema data).errors =
      [("Required field missing: ".toList ++ p)] ∧
    (validate schema data).isValid = false := by
  obtain ⟨entries, warns, h⟩ := vFields_noThrow schema data [] hnt
  rw [hone] at h
  unfold validate
  rw [h]
  simp [fmtReq]

/-- C5 witness: the same schema with payload `\x7bxs: [\x7b\x7d]\x7d` —
nothing throws, `xs[0].r` is the one missing required field, and the
single error names its dotted path. -/
theorem C5_theorem_witness :
    (validate [("xs".toList, .mk .tarray false (some
        [("r".toList, .mk .tstring true none)]))]
        (Js.obj [("xs".toList, Js.arr [Js.obj []])])).errors =
      ["Required field missing: xs[0].r".toList] ∧
    (validate [("xs".toList, .mk .tarray false (some
        [("r".toList, .mk .tstring true none)]))]
        (Js.obj [("xs".toList, Js.arr [Js.obj []])])).isValid = false :=
  C5_theorem _ _ "xs[0].r".toList (by decide) rfl

/-- The claim's "well-formed" for a leaf value: the type's validator
accepts it and its normalizer fixes it (so the output carries it over
unchanged). -/
def conformsV : FType → Js → Bool
  | .tstring, .str s => decide (jsTrim s = s)
  | .temail, .str s => emailOk s && decide (jsTrim (toLowerStr s) = s)
  | .tphone, .str s => phoneOk s && decide (stripPhone s = s)
  | .turl, .str s => urlOk s && decide (jsTrim s = s)
  | .tdate, .str s => isoDateOk s
  | .tother, _ => true
  | _, _ => false

mutual

/-- The claim's "valid payload matching S exactly", for one present
field value. -/
def conformsF : FieldSchema → Js → Bool
  | .mk t _ fieldsOpt, v =>
    if t = .tarray then
      match fieldsOpt, v with
      | some flds, .arr items => items.all (fun it => conformsO flds it)
      | none, .arr _ => true
      | _, _ => false
    else if t = .tobject then
      match fieldsOpt with
      | some flds => conformsO flds v
      | none => true
    else conformsV t v

/-- The claim's "valid payload matching S exactly": every required field
present and well-formed, every present field conforming. -/
def conformsO : List (Str × FieldSchema) → Js → Bool
  | [], _ => true
  | (key, cfg) :: rest, data =>
      !isNullish data &&
        (if isMissing (getD data key) then !cfg.required
         else conformsF cfg (getD data key)) &&
        conformsO rest data

end

mutual

/-- The claim's expected output for one present field value: the value
itself, rebuilt on the schema's shape (array items and objects keep
exactly their schema fields). -/
def expectedF : FieldSchema → Js → Js
  | .mk t _ fieldsOpt, v =>
    if t = .tarray then
      match fieldsOpt with
      | some flds =>
          .arr ((wrapItems v).map (fun it => Js.obj (expectedO flds it)))
      | none => v
    else if t = .tobject then
      match fieldsOpt with
      | some flds => .obj (expectedO flds v)
      | none => v
    else v

/-- The claim's expected output tree: the payload's values carried over
unchanged on the schema's keys, with every optional absent field present
as an explicit null. -/
def expectedO : List (Str × FieldSchema) → Js → List (Str × Js)
  | [], _ => []
  | (key, cfg) :: rest, data =>
      (if isMissing (getD data key) then (key, Js.null)
       else (key, expectedF cfg (getD data key))) :: expectedO rest data

end

theorem vItemsGo_exact
    (f : Js → Str → Except Str (List (Str × Js)) × List Str × List Str)
    (g : Js → List (Str × Js)) (path : Str) :
    ∀ (items : List Js) (done : List Js) (errs warns : List Str) (i : Nat),
      (∀ item ∈ items, ∀ p, f item p = (.ok (g item), [], [])) →
      vItemsGo f path items (.ok done, errs, warns, i) =
        (.ok (done ++ items.map (fun it => Js.obj (g it))), errs, warns,
         i + items.length) := by
  intro items
  induction items with
  | nil => intro done errs warns i _; simp [vItemsGo]
  | cons item rest ih =>
    intro done errs warns i hall
    rw [vItemsGo, vItemStep,
      hall item (List.mem_cons_self item rest) (itemPath path i),
      ih (done ++ [Js.obj (g item)]) (errs ++ []) (warns ++ []) (i + 1)
        (fun it hit p => hall it (List.mem_cons_of_mem item hit) p)]
    simp only [Prod.mk.injEq, List.append_nil, List.map, List.length_cons,
      List.append_assoc, List.singleton_append]
    refine ⟨trivial, trivial, trivial, by omega⟩

theorem conforms_spec : ∀ n : Nat,
    (∀ (cfg : FieldSchema) (path : Str) (v : Js), sizeOf cfg ≤ n →
      isMissing v = false → conformsF cfg v = true →
      vField cfg path v = (.ok (expectedF cfg v), [], [])) ∧
    (∀ (flds : List (Str × FieldSchema)) (data : Js) (path : Str),
      sizeOf flds ≤ n → conformsO flds data = true →
      vFields data flds path = (.ok (expectedO flds data), [], [])) := by
  intro n
  induction n with
  | zero =>
    constructor
    · intro cfg path v hs
      obtain ⟨t, req, fo⟩ := cfg
      simp at hs
    · intro flds data path hs hc
      match flds, hc with
      | [], _ => rfl
      | (key, cfg) :: rest, _ => simp at hs
  | succ n ih =>
    constructor
    · intro cfg path v hs hm hc
      obtain ⟨t, req, fo⟩ := cfg
      have hsf : ∀ flds, fo = some flds → sizeOf flds ≤ n := by
        intro flds hfo
        subst hfo
        simp at hs
        omega
      cases t with
      | tarray =>
        cases fo with
        | none =>
          cases v with
          | arr items => simp [vField, expectedF, wrapArr]
          | undef => exact Bool.noConfusion hc
          | null => exact Bool.noConfusion hc
          | bool b => exact Bool.noConfusion hc
          | num m => exact Bool.noConfusion hc
          | str s => exact Bool.noConfusion hc
          | obj kvs => exact Bool.noConfusion hc
        | some flds =>
          cases v with
          | arr items =>
            have hc' : items.all (fun it => conformsO flds it) = true := hc
            rw [List.all_eq_true] at hc'
            have hall : ∀ item ∈ items, ∀ p,
                vFields item flds p =
                  (.ok (expectedO flds item), [], []) := by
              intro item hit p
              exact ih.2 flds item p (hsf flds rfl) (hc' item hit)
            rw [show vField (.mk .tarray req (some flds)) path
                (.arr items) =
              (let st := vItemsGo (fun it p => vFields it flds p) path
                  (wrapItems (.arr items)) (.ok [], [], [], 0)
               (match st.1 with
                | .ok objs => .ok (.arr objs)
                | .error m => .error m, st.2.1,
                (wrapArr path (.arr items)).2 ++ st.2.2.1)) from rfl]
            rw [show wrapItems (Js.arr items) = items from rfl,
              vItemsGo_exact (fun it p => vFields it flds p)
                (fun it => expectedO flds it) path items [] [] [] 0 hall]
            simp [expectedF, wrapArr, wrapItems]
          | undef => exact Bool.noConfusion hc
          | null => exact Bool.noConfusion hc
          | bool b => exact Bool.noConfusion hc
          | num m => exact Bool.noConfusion hc
          | str s => exact Bool.noConfusion hc
          | obj kvs => exact Bool.noConfusion hc
      | tobject =>
        cases fo with
        | some flds =>
          have hc' : conformsO flds v = true := hc
          rw [show (vField (.mk .tobject req (some flds)) path v) =
            (match vFields v flds path with
             | (.ok entries, eD, wD) => (.ok (.obj entries), eD, wD)
             | (.error m, eD, wD) => (.error m, eD, wD)) from rfl,
            ih.2 flds v path (hsf flds rfl) hc']
          simp [expectedF]
        | none =>
          simp [vField, expectedF]
      | tstring =>
        cases v with
        | str s =>
          have ht : jsTrim s = s := of_decide_eq_true hc
          simp [vField, leafStep, expectedF, jsToString, ht]
        | undef => exact Bool.noConfusion hc
        | null => exact Bool.noConfusion hc
        | bool b => exact Bool.noConfusion hc
        | num m => exact Bool.noConfusion hc
        | arr items => exact Bool.noConfusion hc
        | obj kvs => exact Bool.noConfusion hc
      | temail =>
        cases v with
        | str s =>
          have hc0 : (emailOk s &&
              decide (jsTrim (toLowerStr s) = s)) = true := hc
          rw [Bool.and_eq_true] at hc0
          have ht : jsTrim (toLowerStr s) = s := of_decide_eq_true hc0.2
          simp [vField, leafStep, expectedF, jsToString, hc0.1, ht]
        | undef => exact Bool.noConfusion hc
        | null => exact Bool.noConfusion hc
        | bool b => exact Bool.noConfusion hc
        | num m => exact Bool.noConfusion hc
        | arr items => exact Bool.noConfusion hc
        | obj kvs => exact Bool.noConfusion hc
      | tphone =>
        cases v with
        | str s =>
          have hc0 : (phoneOk s && decide (stripPhone s = s)) = true := hc
          rw [Bool.and_eq_true] at hc0
          have ht : stripPhone s = s := of_decide_eq_true hc0.2
          simp [vField, leafStep, expectedF, hc0.1, ht]
        | undef => exact Bool.noConfusion hc
        | null => exact Bool.noConfusion hc
        | bool b => exact Bool.noConfusion hc
        | num m => exact Bool.noConfusion hc
        | arr items => exact Bool.noConfusion hc
        | obj kvs => exact Bool.noConfusion hc
      | turl =>
        cases v with
        | str s =>
          have hc0 : (urlOk s && decide (jsTrim s = s)) = true := hc
          rw [Bool.and_eq_true] at hc0
          have ht : jsTrim s = s := of_decide_eq_true hc0.2
          simp [vField, leafStep, expectedF, jsToString, hc0.1, ht]
        | undef => exact Bool.noConfusion hc
        | null => exact Bool.noConfusion hc
        | bool b => exact Bool.noConfusion hc
        | num m => exact Bool.noConfusion hc
        | arr items => exact Bool.noConfusion hc
        | obj kvs => exact Bool.noConfusion hc
      | tdate =>
        cases v with
        | str s =>
          have hd : isoDateOk s = true := hc
          simp [vField, leafStep, expectedF, dateParseOk, hd]
        | undef => exact Bool.noConfusion hc
        | null => exact Bool.noConfusion hc
        | bool b => exact Bool.noConfusion hc
        | num m => exact Bool.noConfusion hc
        | arr items => exact Bool.noConfusion hc
        | obj kvs => exact Bool.noConfusion hc
      | tother =>
        simp [vField, leafStep, expectedF]
    · intro flds data path hs hc
      match flds, hc with
      | [], _ => rfl
      | (key, cfg) :: rest, hc =>
        have hscfg : sizeOf cfg ≤ n := by
          simp at hs
          omega
        have hsrest : sizeOf rest ≤ n := by
          simp at hs
          omega
        simp only [conformsO, Bool.and_eq_true, Bool.not_eq_true'] at hc
        obtain ⟨⟨hnn, hval⟩, hrest⟩ := hc
        have hget := jsGetE_of_not_nullish data key hnn
        have hR := ih.2 rest data path hsrest hrest
        by_cases hmiss : isMissing (getD data key) = true
        · rw [hmiss] at hval
          simp only [if_true] at hval
          have hreq : cfg.required = false := by simpa using hval
          simp only [vFields, hget, hreq, hmiss, Bool.false_and,
            Bool.not_true, reduceIte, hR, expectedO]
          simp [hmiss]
        · have hm' : isMissing (getD data key) = false := by simpa using hmiss
          rw [hm'] at hval
          simp only [if_false, Bool.false_eq_true] at hval
          have hF := ih.1 cfg
            (if path = [] then key else path ++ '.' :: key)
            (getD data key) hscfg hm' hval
          simp only [vFields, hget, hm', Bool.and_false, reduceIte,
            Bool.not_false, hF, hR, expectedO]
          simp [hm']

/-- C6: for a payload matching the schema exactly — every required field
present, every present value well-formed (accepted by its type's
validator and fixed by its normalizer), containers dereferenceable —
`validate` returns `isValid = true`, no errors or warnings, and a data
tree carrying the payload's values over unchanged on the schema's keys,
with every optional absent field present as an explicit null
(`expectedO` is the claim's "deep-equals P except optional-missing
fields appear as explicit null"). -/
theorem C6_theorem (schema : List (Str × FieldSchema)) (data : Js)
    (h : conformsO schema data = true) :
    validate schema data = ⟨true, .obj (expectedO schema data), [], []⟩ := by
  unfold validate
  rw [(conforms_spec (sizeOf schema)).2 schema data [] le_rfl h]
  rfl

/-- A schema exercising object nesting, leaf types, arrays and an
optional field, with a payload matching it exactly. -/
def c6Schema : List (Str × FieldSchema) :=
  [("personal".toList, .mk .tobject true (some
     [("fullName".toList, .mk .tstring true none),
      ("email".toList, .mk .temail true none),
      ("phone".toList, .mk .tphone false none)])),
   ("experience".toList, .mk .tarray false (some
     [("company".toList, .mk .tstring true none),
      ("startDate".toList, .mk .tdate false none)]))]

def c6Payload : Js :=
  Js.obj [("personal".toList, Js.obj
            [("fullName".toList, Js.str "Jane Doe".toList),
             ("email".toList, Js.str "jane@x.com".toList)]),
          ("experience".toList, Js.arr
            [Js.obj [("company".toList, Js.str "Acme".toList),
                     ("startDate".toList, Js.str "2020-01-15".toList)]])]

/-- C6 witness: the conforming payload validates with no errors or
warnings; its values are carried over unchanged and the optional absent
`personal.phone` appears as an explicit null. -/
theorem C6_theorem_witness :
    validate c6Schema c6Payload =
      ⟨true,
       Js.obj [("personal".toList, Js.obj
                 [("fullName".toList, Js.str "Jane Doe".toList),
                  ("email".toList, Js.str "jane@x.com".toList),
                  ("phone".toList, Js.null)]),
               ("experience".toList, Js.arr
                 [Js.obj [("company".toList, Js.str "Acme".toList),
                          ("startDate".toList,
                           Js.str "2020-01-15".toList)]])],
       [], []⟩ := by
  have h := C6_theorem c6Schema c6Payload (by decide)
  rw [h]
  rfl
